import Mathlib

/-! The static preview server `scripts/web/server.js` of gait-charts.

A shallow embedding of the request path resolution and response selection of
`scripts/web/server.js`, with the parts of the Node.js runtime it calls
(`decodeURIComponent`, the POSIX flavour of the `path` module, and the two
synchronous file-system probes) modelled next to it.

Conventions of the embedding:

* a JavaScript string is a `List Char`;
* a function that can throw returns `Except JsError _`;
* the file system is a parameter: the two probes the handler calls,
  `fs.existsSync` and `fs.statSync`, are fields of `FileSystem`;
* the module constant `webDir` and the process working directory `cwd`
  (consulted by `path.resolve` only when no argument is absolute) are
  parameters.
-/

set_option autoImplicit false

deriving instance DecidableEq for Except

namespace GaitCharts

/-! ## Data model -/

/-- A JavaScript string value. -/
abbrev JsString := List Char

/-- The exceptions the handler can meet: the `URIError` of
`decodeURIComponent`, and a failing `fs.statSync`. -/
inductive JsError where
  | uriError
  | statError
  deriving DecidableEq, Repr

/-- What `fs.statSync(p)` reports about an existing path: `isFile()` holds
for `file`, `isDirectory()` for `directory`, neither for `other`. -/
inductive FileKind where
  | file
  | directory
  | other
  deriving DecidableEq, Repr

/-- The method `Stats.isFile()`. -/
def FileKind.isFile : FileKind → Bool
  | .file => true
  | _ => false

/-- The method `Stats.isDirectory()`. -/
def FileKind.isDirectory : FileKind → Bool
  | .directory => true
  | _ => false

/-- The file system as the handler sees it: `fs.existsSync` never throws,
`fs.statSync` may. -/
structure FileSystem where
  existsSync : JsString → Bool
  statSync : JsString → Except JsError FileKind

/-- The body of a response: a literal text (`res.end(text)`) or the stream of
a file (`fs.createReadStream(filePath).pipe(res)`). -/
inductive Body where
  | text (s : String)
  | stream (filePath : JsString)
  deriving DecidableEq, Repr

/-- What the handler writes to `res`. -/
structure Response where
  statusCode : Nat
  headers : List (String × String)
  body : Body
  deriving DecidableEq, Repr

/-! ## `String.prototype` helpers -/

/-- The expression `s.split(sep)[0]`: the text before the first `sep`. -/
def splitHead (sep : Char) : JsString → JsString
  | [] => []
  | c :: cs => if c = sep then [] else c :: splitHead sep cs

/-- The expression `s.replace(/^\//, '')`: one leading slash removed. -/
def stripLeadingSlash : JsString → JsString
  | [] => []
  | c :: cs => if c = '/' then cs else c :: cs

/-- The method `s.startsWith(p)`. -/
def startsWith (s p : JsString) : Bool := p.isPrefixOf s

/-- The method `s.toLowerCase()` on the ASCII letters; other code points are
left as they are. -/
def toLowerCase (s : JsString) : JsString := s.map Char.toLower

/-! ## `decodeURIComponent` -/

/-- The value of a hexadecimal digit. -/
def hexVal (c : Char) : Option Nat :=
  if '0' ≤ c ∧ c ≤ '9' then some (c.toNat - 48)
  else if 'a' ≤ c ∧ c ≤ 'f' then some (c.toNat - 87)
  else if 'A' ≤ c ∧ c ≤ 'F' then some (c.toNat - 55)
  else none

/-- One unit of an encoded string: a character standing for itself, or the
octet written by an escape `%XX`. -/
inductive Item where
  | unit (c : Char)
  | octet (b : Nat)
  deriving DecidableEq, Repr

/-- First pass of `decodeURIComponent`: every `%` must be followed by two
hexadecimal digits, otherwise a `URIError` is thrown. -/
def percentItems : JsString → Except JsError (List Item)
  | [] => .ok []
  | c :: cs =>
    if c = '%' then
      match cs with
      | h1 :: h2 :: rest =>
        match hexVal h1, hexVal h2 with
        | some a, some b => (percentItems rest).map (fun is => Item.octet (16 * a + b) :: is)
        | _, _ => .error .uriError
      | _ => .error .uriError
    else (percentItems cs).map (fun is => Item.unit c :: is)

/-- Second pass of `decodeURIComponent`: the octets are read as UTF-8.
The state is `none` between code points and `some (n, acc, lo)` inside one,
with `n` continuation octets still expected, `acc` the bits read so far and
`lo` the least code point this length may encode. An octet out of place, an
overlong form, a surrogate or a value above U+10FFFF throws a `URIError`. -/
def utf8Assemble : Option (Nat × Nat × Nat) → List Item → Except JsError JsString
  | none, [] => .ok []
  | some _, [] => .error .uriError
  | none, Item.unit c :: is => (utf8Assemble none is).map (fun s => c :: s)
  | none, Item.octet b :: is =>
    if b < 0x80 then (utf8Assemble none is).map (fun s => Char.ofNat b :: s)
    else if 0xC0 ≤ b ∧ b < 0xE0 then utf8Assemble (some (1, b - 0xC0, 0x80)) is
    else if 0xE0 ≤ b ∧ b < 0xF0 then utf8Assemble (some (2, b - 0xE0, 0x800)) is
    else if 0xF0 ≤ b ∧ b < 0xF8 then utf8Assemble (some (3, b - 0xF0, 0x10000)) is
    else .error .uriError
  | some _, Item.unit _ :: _ => .error .uriError
  | some (n, acc, lo), Item.octet b :: is =>
    if 0x80 ≤ b ∧ b < 0xC0 then
      if n ≤ 1 then
        if lo ≤ acc * 64 + (b - 0x80) ∧ acc * 64 + (b - 0x80) ≤ 0x10FFFF ∧
            ¬ (0xD800 ≤ acc * 64 + (b - 0x80) ∧ acc * 64 + (b - 0x80) ≤ 0xDFFF) then
          (utf8Assemble none is).map (fun s => Char.ofNat (acc * 64 + (b - 0x80)) :: s)
        else .error .uriError
      else utf8Assemble (some (n - 1, acc * 64 + (b - 0x80), lo)) is
    else .error .uriError

/-- The global function `decodeURIComponent`. -/
def decodeURIComponent (s : JsString) : Except JsError JsString :=
  match percentItems s with
  | .ok is => utf8Assemble none is
  | .error e => .error e

/-! ## The POSIX `path` module -/

/-- The path cut at every `/`. -/
def splitSlash : JsString → List JsString
  | [] => [[]]
  | c :: cs =>
    if c = '/' then [] :: splitSlash cs
    else
      match splitSlash cs with
      | [] => [[c]]
      | s :: ss => (c :: s) :: ss

/-- Segments written with a `/` between them. -/
def joinSlash : List JsString → JsString
  | [] => []
  | [s] => s
  | s :: t :: ss => s ++ '/' :: joinSlash (t :: ss)

/-- One step of Node's `normalizeString`, on the stack of segments kept so
far (last segment first): an empty segment and `.` are dropped, `..` removes
the last kept segment, and is itself kept only above the start of a relative
path (`allowAboveRoot`). -/
def normStep (allowAboveRoot : Bool) (stack : List JsString) (seg : JsString) :
    List JsString :=
  if seg = [] ∨ seg = ['.'] then stack
  else if seg = ['.', '.'] then
    match stack with
    | [] => if allowAboveRoot then [seg] else []
    | top :: below =>
      if top = ['.', '.'] then (if allowAboveRoot then seg :: stack else stack)
      else below
  else seg :: stack

/-- Node's internal `normalizeString(path, allowAboveRoot, '/', ...)`. -/
def normalizeString (path : JsString) (allowAboveRoot : Bool) : JsString :=
  joinSlash ((splitSlash path).foldl (normStep allowAboveRoot) []).reverse

/-- The function `path.isAbsolute`. -/
def pathIsAbsolute (path : JsString) : Bool := path.head? = some '/'

/-- The loop of `path.resolve`: the arguments are taken from the right (the
list holds them in that order, the working directory last), empty ones are
skipped, and the loop stops at the first absolute one. The result is the
joined text and whether an absolute argument was met. -/
def resolveLoop : List JsString → JsString → JsString × Bool
  | [], acc => (acc, false)
  | p :: ps, acc =>
    if p = [] then resolveLoop ps acc
    else if pathIsAbsolute p then (p ++ '/' :: acc, true)
    else resolveLoop ps (p ++ '/' :: acc)

/-- The function `path.resolve(...args)`, with the working directory `cwd`. -/
def pathResolve (cwd : JsString) (args : List JsString) : JsString :=
  let r := resolveLoop (args.reverse ++ [cwd]) []
  let resolvedPath := normalizeString r.1 (!r.2)
  if r.2 then '/' :: resolvedPath
  else if resolvedPath = [] then ['.'] else resolvedPath

/-- The function `path.normalize`. -/
def pathNormalize (path : JsString) : JsString :=
  if path = [] then ['.']
  else
    let isAbsolute := pathIsAbsolute path
    let trailingSeparator : Bool := path.getLast? = some '/'
    let p := normalizeString path (!isAbsolute)
    if p = [] then
      if isAbsolute then ['/'] else if trailingSeparator then ['.', '/'] else ['.']
    else
      let q := if trailingSeparator then p ++ ['/'] else p
      if isAbsolute then '/' :: q else q

/-- The function `path.join(...args)`. -/
def pathJoin (args : List JsString) : JsString :=
  let parts := args.filter (fun a => a ≠ [])
  if parts = [] then ['.'] else pathNormalize (joinSlash parts)

/-- The non-empty segments of a path. -/
def pathSegments (path : JsString) : List JsString :=
  (splitSlash path).filter (fun s => s ≠ [])

/-- Two segment lists with their common beginning removed. -/
def dropCommon : List JsString → List JsString → List JsString × List JsString
  | a :: as, b :: bs => if a = b then dropCommon as bs else (a :: as, b :: bs)
  | as, bs => (as, bs)

/-- The function `path.relative(from, to)`: both paths are resolved, the
segments they share are dropped, and the answer climbs with one `..` for
every segment left of `from` before descending along what is left of `to`. -/
def pathRelative (cwd fromPath toPath : JsString) : JsString :=
  if fromPath = toPath then []
  else
    let f := pathResolve cwd [fromPath]
    let t := pathResolve cwd [toPath]
    if f = t then []
    else
      let d := dropCommon (pathSegments f) (pathSegments t)
      joinSlash (List.replicate d.1.length ['.', '.'] ++ d.2)

/-- The function `path.extname`: trailing slashes are ignored; in the last
component, the text from its last `.` on, and nothing when there is no `.`,
when the last `.` is the component's first character, or when the component
is `..`. -/
def pathExtname (path : JsString) : JsString :=
  let baseRev := (path.reverse.dropWhile (fun c => c = '/')).takeWhile (fun c => c ≠ '/')
  let extRev := baseRev.takeWhile (fun c => c ≠ '.')
  if extRev.length = baseRev.length then []
  else if extRev.length + 1 = baseRev.length then []
  else if baseRev = ['.', '.'] then []
  else '.' :: extRev.reverse

/-! ## `scripts/web/server.js` -/

/-- The name of the entry document. -/
def indexHtml : JsString := "index.html".toList

/-- The function `contentTypeFor(filePath)`. -/
def contentTypeFor (filePath : JsString) : String :=
  let ext := toLowerCase (pathExtname filePath)
  if ext = ".html".toList then "text/html; charset=utf-8"
  else if ext = ".js".toList then "application/javascript; charset=utf-8"
  else if ext = ".mjs".toList then "application/javascript; charset=utf-8"
  else if ext = ".css".toList then "text/css; charset=utf-8"
  else if ext = ".json".toList then "application/json; charset=utf-8"
  else if ext = ".wasm".toList then "application/wasm"
  else if ext = ".svg".toList then "image/svg+xml"
  else if ext = ".png".toList then "image/png"
  else if ext = ".jpg".toList then "image/jpeg"
  else if ext = ".jpeg".toList then "image/jpeg"
  else if ext = ".gif".toList then "image/gif"
  else if ext = ".webp".toList then "image/webp"
  else if ext = ".ico".toList then "image/x-icon"
  else if ext = ".txt".toList then "text/plain; charset=utf-8"
  else if ext = ".map".toList then "application/json; charset=utf-8"
  else "application/octet-stream"

/-- The expression `urlPath.split('?')[0].split('#')[0]`. -/
def stripQueryHash (urlPath : JsString) : JsString :=
  splitHead '#' (splitHead '?' urlPath)

/-- The candidate `abs` of `resolveSafePath`, from the decoded path. -/
def candidatePath (cwd webDir decoded : JsString) : JsString :=
  pathResolve cwd [webDir, stripLeadingSlash decoded]

/-- The function `resolveSafePath(urlPath)`. -/
def resolveSafePath (cwd webDir urlPath : JsString) : Except JsError JsString :=
  let clean := stripQueryHash urlPath
  match decodeURIComponent clean with
  | .error e => .error e
  | .ok decoded =>
    let abs := candidatePath cwd webDir decoded
    let relToRoot := pathRelative cwd webDir abs
    if startsWith relToRoot ['.', '.'] || pathIsAbsolute relToRoot then
      .ok (pathJoin [webDir, indexHtml])
    else .ok abs

/-- The expression `req.url || '/'`: an absent or empty URL reads as `/`. -/
def reqUrlOf : Option JsString → JsString
  | none => ['/']
  | some u => if u = [] then ['/'] else u

/-- The test `fs.existsSync(p) && fs.statSync(p).isDirectory()`. -/
def isExistingDirectory (fs : FileSystem) (p : JsString) : Except JsError Bool :=
  if fs.existsSync p then (fs.statSync p).map FileKind.isDirectory else .ok false

/-- The test `!fs.existsSync(p) || !fs.statSync(p).isFile()`. -/
def isNotRegularFile (fs : FileSystem) (p : JsString) : Except JsError Bool :=
  if !fs.existsSync p then .ok true else (fs.statSync p).map (fun k => !k.isFile)

/-- The value of `filePath` when the handler reaches the terminal check:
`resolveSafePath`, the root shortcut, the directory expansion and the SPA
fallback, in the order of the source. -/
def finalPath (fs : FileSystem) (cwd webDir : JsString) (url : Option JsString) :
    Except JsError JsString :=
  let reqUrl := reqUrlOf url
  match resolveSafePath cwd webDir reqUrl with
  | .error e => .error e
  | .ok resolved =>
    let p1 := if reqUrl = ['/'] ∨ reqUrl = [] then pathJoin [webDir, indexHtml] else resolved
    match isExistingDirectory fs p1 with
    | .error e => .error e
    | .ok isDir =>
      let p2 := if isDir then pathJoin [p1, indexHtml] else p1
      let hasExt : Bool := pathExtname p2 ≠ []
      .ok (if !fs.existsSync p2 && !hasExt then pathJoin [webDir, indexHtml] else p2)

/-- The response of the `catch` branch. -/
def response500 : Response :=
  { statusCode := 500
    headers := [("Content-Type", "text/plain; charset=utf-8")]
    body := .text "Internal Server Error" }

/-- The response of the terminal check when it fails. -/
def response404 : Response :=
  { statusCode := 404
    headers := [("Content-Type", "text/plain; charset=utf-8")]
    body := .text "Not Found" }

/-- The response that streams `filePath`. -/
def response200 (filePath : JsString) : Response :=
  { statusCode := 200
    headers :=
      [("Content-Type", contentTypeFor filePath),
       ("Cross-Origin-Opener-Policy", "same-origin"),
       ("Cross-Origin-Embedder-Policy", "require-corp"),
       ("Cross-Origin-Resource-Policy", "cross-origin"),
       ("Access-Control-Allow-Origin", "*"),
       ("Cache-Control", "no-cache")]
    body := .stream filePath }

/-- The request handler given to `http.createServer`: the response written
for the request URL `url`. -/
def handler (fs : FileSystem) (cwd webDir : JsString) (url : Option JsString) : Response :=
  match finalPath fs cwd webDir url with
  | .error _ => response500
  | .ok filePath =>
    match isNotRegularFile fs filePath with
    | .error _ => response500
    | .ok true => response404
    | .ok false => response200 filePath

/-! ## Vocabulary of the statements -/

/-- An ordinary path segment: not empty, not `.`, not `..`, and without `/`.
These are the segments of a normalised path. -/
def Ordinary (s : JsString) : Prop :=
  s ≠ [] ∧ s ≠ ['.'] ∧ s ≠ ['.', '.'] ∧ '/' ∉ s

instance : DecidablePred Ordinary := fun s =>
  inferInstanceAs (Decidable (s ≠ [] ∧ s ≠ ['.'] ∧ s ≠ ['.', '.'] ∧ '/' ∉ s))

/-- The absolute path with the given segments: `/` for none, `/a/b` for
`a`, `b`. With ordinary segments these are the normalised absolute paths,
the values of `path.resolve`. -/
def absOf (segs : List JsString) : JsString := '/' :: joinSlash segs

/-- A plain segment: ordinary, and written without `?`, `#` or `%`, so that
it reads the same in a request URL as on disk. -/
def Plain (s : JsString) : Prop :=
  Ordinary s ∧ '?' ∉ s ∧ '#' ∉ s ∧ '%' ∉ s

instance : DecidablePred Plain := fun s =>
  inferInstanceAs (Decidable (Ordinary s ∧ '?' ∉ s ∧ '#' ∉ s ∧ '%' ∉ s))

/-- The file system that holds the listed regular files and directories and
nothing else. -/
def fsOf (files dirs : List JsString) : FileSystem where
  existsSync := fun p => decide (p ∈ dirs ∨ p ∈ files)
  statSync := fun p =>
    if p ∈ dirs then .ok .directory
    else if p ∈ files then .ok .file
    else .error .statError

/-- The header `Content-Type` of a response. -/
def Response.contentType (r : Response) : Option String :=
  r.headers.lookup "Content-Type"

/-- The content-type table as the specification words it: the fifteen
lower-case extensions with their MIME strings. -/
def mimeTable : List (JsString × String) :=
  [(".html".toList, "text/html; charset=utf-8"),
   (".js".toList, "application/javascript; charset=utf-8"),
   (".mjs".toList, "application/javascript; charset=utf-8"),
   (".css".toList, "text/css; charset=utf-8"),
   (".json".toList, "application/json; charset=utf-8"),
   (".map".toList, "application/json; charset=utf-8"),
   (".wasm".toList, "application/wasm"),
   (".svg".toList, "image/svg+xml"),
   (".png".toList, "image/png"),
   (".jpg".toList, "image/jpeg"),
   (".jpeg".toList, "image/jpeg"),
   (".gif".toList, "image/gif"),
   (".webp".toList, "image/webp"),
   (".ico".toList, "image/x-icon"),
   (".txt".toList, "text/plain; charset=utf-8")]

/-- The content type the specification gives to a lower-cased extension: its
entry in `mimeTable`, and `application/octet-stream` when it has none. -/
def specContentType (ext : JsString) : String :=
  match mimeTable.lookup ext with
  | some mime => mime
  | none => "application/octet-stream"

/-- Two characters that differ at most in letter case: the same character, or
an ASCII capital and its small letter, in either order. The model carries no
case table for the rest of Unicode, so any two code points outside ASCII are
accepted as well; this covers every non-ASCII capital with its small
letter. -/
def sameLetter (c d : Char) : Bool :=
  decide (c = d) ||
  decide (65 ≤ c.toNat ∧ c.toNat ≤ 90 ∧ d.toNat = c.toNat + 32) ||
  decide (65 ≤ d.toNat ∧ d.toNat ≤ 90 ∧ c.toNat = d.toNat + 32) ||
  decide (128 ≤ c.toNat ∧ 128 ≤ d.toNat)

/-- Two texts of the same length whose characters differ at most in letter
case. -/
def sameUpToCase : JsString → JsString → Bool
  | [], [] => true
  | c :: cs, d :: ds => sameLetter c d && sameUpToCase cs ds
  | _, _ => false

/-! ## Lemmas: splitting and joining -/

theorem splitSlash_ne_nil (x : JsString) : splitSlash x ≠ [] := by
  induction x with
  | nil => simp [splitSlash]
  | cons c cs ih =>
    unfold splitSlash
    split_ifs
    · simp
    · cases h : splitSlash cs <;> simp

theorem splitSlash_cons_of_ne (c : Char) (cs : JsString) (hc : c ≠ '/') :
    ∃ s ss, splitSlash cs = s :: ss ∧ splitSlash (c :: cs) = (c :: s) :: ss := by
  cases h : splitSlash cs with
  | nil => exact absurd h (splitSlash_ne_nil cs)
  | cons s ss => exact ⟨s, ss, rfl, by simp [splitSlash, hc, h]⟩

theorem splitSlash_append (x y : JsString) :
    splitSlash (x ++ '/' :: y) = splitSlash x ++ splitSlash y := by
  induction x with
  | nil => simp [splitSlash]
  | cons c cs ih =>
    by_cases hc : c = '/'
    · subst hc
      simp [splitSlash, ih]
    · obtain ⟨s, ss, h1, h2⟩ := splitSlash_cons_of_ne c cs hc
      rw [h2]
      have h3 : splitSlash (c :: (cs ++ '/' :: y)) = (c :: s) :: (ss ++ splitSlash y) := by
        simp [splitSlash, hc, ih, h1]
      simpa using h3

theorem splitSlash_of_not_mem (s : JsString) (h : '/' ∉ s) : splitSlash s = [s] := by
  induction s with
  | nil => rfl
  | cons c cs ih =>
    have hc : c ≠ '/' := fun e => h (by simp [e])
    have hcs : '/' ∉ cs := fun e => h (by simp [e])
    simp [splitSlash, hc, ih hcs]

theorem splitSlash_joinSlash (segs : List JsString) (hne : segs ≠ [])
    (h : ∀ s ∈ segs, '/' ∉ s) : splitSlash (joinSlash segs) = segs := by
  induction segs with
  | nil => exact absurd rfl hne
  | cons s ss ih =>
    cases ss with
    | nil => simpa [joinSlash] using splitSlash_of_not_mem s (h s (by simp))
    | cons t ts =>
      have h1 := splitSlash_of_not_mem s (h s (by simp))
      have h2 := ih (by simp) (fun u hu => h u (by simp [hu]))
      simp only [joinSlash, splitSlash_append, h1, h2]
      rfl

theorem not_mem_of_mem_splitSlash (x : JsString) :
    ∀ s ∈ splitSlash x, '/' ∉ s := by
  induction x with
  | nil => simp [splitSlash]
  | cons c cs ih =>
    by_cases hc : c = '/'
    · subst hc
      intro s hs
      simp only [splitSlash, if_true, List.mem_cons] at hs
      rcases hs with rfl | hs
      · simp
      · exact ih s hs
    · obtain ⟨t, ts, h1, h2⟩ := splitSlash_cons_of_ne c cs hc
      rw [h2]
      intro s hs
      rw [h1] at ih
      simp only [List.mem_cons] at hs
      rcases hs with rfl | hs
      · have := ih t (by simp)
        simp only [List.mem_cons, not_or]
        exact ⟨fun e => hc e.symm, this⟩
      · exact ih s (by simp [hs])

theorem pathSegments_absOf (S : List JsString) (hS : ∀ s ∈ S, Ordinary s) :
    pathSegments (absOf S) = S := by
  have hfil : S.filter (fun s => decide (s ≠ [])) = S :=
    List.filter_eq_self.2 (fun s hs => by simpa using (hS s hs).1)
  cases S with
  | nil => simp [pathSegments, absOf, joinSlash, splitSlash]
  | cons a as =>
    have h := splitSlash_joinSlash (a :: as) (by simp) (fun s hs => (hS s hs).2.2.2)
    simp only [pathSegments, absOf, splitSlash, if_true, h]
    simpa using hfil

theorem absOf_injective (R S : List JsString) (hR : ∀ s ∈ R, Ordinary s)
    (hS : ∀ s ∈ S, Ordinary s) (h : absOf R = absOf S) : R = S := by
  rw [← pathSegments_absOf R hR, ← pathSegments_absOf S hS, h]

/-! ## Lemmas: normalisation -/

theorem normStep_ordinary (a : Bool) (stack : List JsString) (s : JsString)
    (h : Ordinary s) : normStep a stack s = s :: stack := by
  obtain ⟨h1, h2, h3, _⟩ := h
  simp [normStep, h1, h2, h3]

theorem normStep_nil (a : Bool) (stack : List JsString) : normStep a stack [] = stack := by
  simp [normStep]

theorem foldl_normStep_ordinary (a : Bool) (P : List JsString) :
    ∀ stack : List JsString, (∀ s ∈ P, s = [] ∨ Ordinary s) →
      P.foldl (normStep a) stack = (P.filter (fun s => s ≠ [])).reverse ++ stack := by
  induction P with
  | nil => intro stack _; simp
  | cons p ps ih =>
    intro stack h
    have hps : ∀ s ∈ ps, s = [] ∨ Ordinary s := fun s hs => h s (by simp [hs])
    rcases h p (by simp) with hp | hp
    · subst hp
      simp [List.foldl_cons, normStep_nil, ih stack hps]
    · have hne : p ≠ [] := hp.1
      simp [List.foldl_cons, normStep_ordinary a stack p hp, ih (p :: stack) hps, hne]

theorem normStep_keeps_ordinary (stack : List JsString) (seg : JsString)
    (hstack : ∀ s ∈ stack, Ordinary s) (hseg : '/' ∉ seg) :
    ∀ s ∈ normStep false stack seg, Ordinary s := by
  unfold normStep
  by_cases h1 : seg = [] ∨ seg = ['.']
  · simpa [h1] using hstack
  · rw [if_neg h1]
    by_cases h2 : seg = ['.', '.']
    · rw [if_pos h2]
      cases stack with
      | nil => simp
      | cons top below =>
        have hbelow : ∀ s ∈ below, Ordinary s := fun s hs => hstack s (by simp [hs])
        by_cases h3 : top = ['.', '.']
        · simpa [h3] using hstack
        · simpa [h3] using hbelow
    · rw [if_neg h2]
      intro s hs
      simp only [List.mem_cons] at hs
      rcases hs with rfl | hs
      · push_neg at h1
        exact ⟨h1.1, h1.2, h2, hseg⟩
      · exact hstack s hs

theorem foldl_normStep_keeps_ordinary (segs : List JsString) :
    ∀ stack : List JsString, (∀ s ∈ stack, Ordinary s) → (∀ s ∈ segs, '/' ∉ s) →
      ∀ s ∈ segs.foldl (normStep false) stack, Ordinary s := by
  induction segs with
  | nil => intro stack h _; simpa using h
  | cons p ps ih =>
    intro stack h hs
    simp only [List.foldl_cons]
    exact ih _ (normStep_keeps_ordinary stack p h (hs p (by simp)))
      (fun s hs2 => hs s (by simp [hs2]))

/-- The text `normalizeString(x, false)` is a list of ordinary segments. -/
theorem normalizeString_shape (x : JsString) :
    ∃ S : List JsString, (∀ s ∈ S, Ordinary s) ∧ normalizeString x false = joinSlash S := by
  refine ⟨((splitSlash x).foldl (normStep false) []).reverse, ?_, rfl⟩
  intro s hs
  rw [List.mem_reverse] at hs
  exact foldl_normStep_keeps_ordinary (splitSlash x) [] (by simp)
    (not_mem_of_mem_splitSlash x) s hs

/-- Normalising the text `/R/P/`, written with possibly empty segments in
`P`, keeps the ordinary segments in order. -/
theorem normalizeString_absOf (a : Bool) (R P : List JsString) (hR : ∀ s ∈ R, Ordinary s)
    (hP : ∀ s ∈ P, s = [] ∨ Ordinary s) (hPs : ∀ s ∈ P, '/' ∉ s) (hne : P ≠ []) :
    normalizeString (absOf R ++ '/' :: joinSlash P) a
      = joinSlash (R ++ P.filter (fun s => s ≠ [])) := by
  have hsplitP : splitSlash (joinSlash P) = P := splitSlash_joinSlash P hne hPs
  have hsplitR : ∀ s ∈ splitSlash (joinSlash R), s = [] ∨ Ordinary s := by
    cases R with
    | nil => simp [joinSlash, splitSlash]
    | cons r rs =>
      rw [splitSlash_joinSlash (r :: rs) (by simp) (fun s hs => (hR s hs).2.2.2)]
      exact fun s hs => Or.inr (hR s hs)
  have hfilR : (splitSlash (joinSlash R)).filter (fun s => s ≠ []) = R := by
    have := pathSegments_absOf R hR
    simpa [pathSegments, absOf, splitSlash] using this
  have hall : ∀ s ∈ [] :: (splitSlash (joinSlash R) ++ P), s = [] ∨ Ordinary s := by
    intro s hs
    simp only [List.mem_cons, List.mem_append] at hs
    rcases hs with rfl | hs | hs
    · exact Or.inl rfl
    · exact hsplitR s hs
    · exact hP s hs
  unfold normalizeString
  have hsplit : splitSlash (absOf R ++ '/' :: joinSlash P)
      = [] :: (splitSlash (joinSlash R) ++ P) := by
    rw [splitSlash_append, hsplitP]
    simp [absOf, splitSlash]
  rw [hsplit, foldl_normStep_ordinary a _ [] hall]
  have hfilR2 := hfilR
  simp only [ne_eq, decide_not] at hfilR2
  simp [List.filter_append, hfilR2]

/-! ## Lemmas: `path.resolve`, `path.join`, `path.relative` -/

theorem absOf_ne_nil (S : List JsString) : absOf S ≠ [] := by simp [absOf]

theorem pathIsAbsolute_absOf (S : List JsString) : pathIsAbsolute (absOf S) = true := by
  simp [pathIsAbsolute, absOf]

theorem joinSlash_append_nil (P : List JsString) (hne : P ≠ []) :
    joinSlash (P ++ [[]]) = joinSlash P ++ ['/'] := by
  induction P with
  | nil => exact absurd rfl hne
  | cons p ps ih =>
    cases ps with
    | nil => simp [joinSlash]
    | cons q qs =>
      have := ih (by simp)
      simp only [List.cons_append] at this ⊢
      simp [joinSlash, this]

theorem joinSlash_append_singleton (P : List JsString) (s : JsString) (hne : P ≠ []) :
    joinSlash (P ++ [s]) = joinSlash P ++ '/' :: s := by
  induction P with
  | nil => exact absurd rfl hne
  | cons p ps ih =>
    cases ps with
    | nil => simp [joinSlash]
    | cons q qs =>
      have := ih (by simp)
      simp only [List.cons_append] at this ⊢
      simp [joinSlash, this]

theorem resolveLoop_absolute (w : JsString) (ps : List JsString) (acc : JsString)
    (hw : pathIsAbsolute w = true) : resolveLoop (w :: ps) acc = (w ++ '/' :: acc, true) := by
  have hwne : w ≠ [] := by
    intro e
    simp [e, pathIsAbsolute] at hw
  simp [resolveLoop, hwne, hw]

theorem resolveLoop_relative (p : JsString) (ps : List JsString) (acc : JsString)
    (hne : p ≠ []) (hp : pathIsAbsolute p = false) :
    resolveLoop (p :: ps) acc = resolveLoop ps (p ++ '/' :: acc) := by
  simp [resolveLoop, hne, hp]

theorem resolveLoop_nil (ps : List JsString) (acc : JsString) :
    resolveLoop ([] :: ps) acc = resolveLoop ps acc := by
  simp [resolveLoop]

theorem pathResolve_of_loop (cwd : JsString) (args : List JsString) (t : JsString)
    (h : resolveLoop (args.reverse ++ [cwd]) [] = (t, true)) :
    pathResolve cwd args = '/' :: normalizeString t false := by
  simp [pathResolve, h]

/-- A resolved path is a fixed point of `path.resolve`. -/
theorem pathResolve_absOf (cwd : JsString) (R : List JsString) (hR : ∀ s ∈ R, Ordinary s) :
    pathResolve cwd [absOf R] = absOf R := by
  have h := normalizeString_absOf false R [[]] hR (by simp) (by simp) (by simp)
  have hfil : [([] : JsString)].filter (fun s => decide (s ≠ [])) = [] := by decide
  rw [hfil, List.append_nil] at h
  simp only [joinSlash] at h
  rw [pathResolve_of_loop cwd [absOf R] (absOf R ++ ['/'])
    (resolveLoop_absolute _ _ _ (pathIsAbsolute_absOf R)), h]
  rfl

/-- With an absolute first argument, `path.resolve` of two arguments is a
normalised absolute path. -/
theorem pathResolve_shape (cwd w rel : JsString) (hw : pathIsAbsolute w = true) :
    ∃ S : List JsString, (∀ s ∈ S, Ordinary s) ∧ pathResolve cwd [w, rel] = absOf S := by
  by_cases h1 : rel = []
  · obtain ⟨S, hS, hn⟩ := normalizeString_shape (w ++ ['/'])
    refine ⟨S, hS, ?_⟩
    rw [pathResolve_of_loop cwd [w, rel] (w ++ ['/']) (by
      subst h1
      exact (resolveLoop_nil _ _).trans (resolveLoop_absolute _ _ _ hw)), hn]
    rfl
  · by_cases h2 : pathIsAbsolute rel = true
    · obtain ⟨S, hS, hn⟩ := normalizeString_shape (rel ++ ['/'])
      refine ⟨S, hS, ?_⟩
      rw [pathResolve_of_loop cwd [w, rel] (rel ++ ['/'])
        (resolveLoop_absolute _ _ _ h2), hn]
      rfl
    · obtain ⟨S, hS, hn⟩ := normalizeString_shape (w ++ '/' :: (rel ++ ['/']))
      refine ⟨S, hS, ?_⟩
      rw [pathResolve_of_loop cwd [w, rel] (w ++ '/' :: (rel ++ ['/']))
        ((resolveLoop_relative _ _ _ h1 (by simpa using h2)).trans
          (resolveLoop_absolute _ _ _ hw)), hn]
      rfl

/-- Resolving a relative text made of ordinary and empty segments below a
resolved root appends its ordinary segments. -/
theorem pathResolve_descend (cwd : JsString) (R P : List JsString)
    (hR : ∀ s ∈ R, Ordinary s) (hP : ∀ s ∈ P, s = [] ∨ Ordinary s)
    (hne : joinSlash P ≠ []) (hrel : pathIsAbsolute (joinSlash P) = false) :
    pathResolve cwd [absOf R, joinSlash P] = absOf (R ++ P.filter (fun s => s ≠ [])) := by
  have hPne : P ≠ [] := by
    intro e
    simp [e, joinSlash] at hne
  have hPs : ∀ s ∈ P ++ [[]], '/' ∉ s := by
    intro s hs
    simp only [List.mem_append, List.mem_singleton] at hs
    rcases hs with hs | rfl
    · rcases hP s hs with rfl | h
      · simp
      · exact h.2.2.2
    · simp
  have hP2 : ∀ s ∈ P ++ [[]], s = [] ∨ Ordinary s := by
    intro s hs
    simp only [List.mem_append, List.mem_singleton] at hs
    rcases hs with hs | rfl
    · exact hP s hs
    · exact Or.inl rfl
  have h := normalizeString_absOf false R (P ++ [[]]) hR hP2 hPs (by simp)
  rw [joinSlash_append_nil P hPne] at h
  have hfil : (P ++ [[]]).filter (fun s => decide (s ≠ [])) = P.filter (fun s => s ≠ []) := by
    simp [List.filter_append]
  rw [hfil] at h
  rw [pathResolve_of_loop cwd [absOf R, joinSlash P] (absOf R ++ '/' :: (joinSlash P ++ ['/']))
    ((resolveLoop_relative _ _ _ hne hrel).trans
      (resolveLoop_absolute _ _ _ (pathIsAbsolute_absOf R))), h]
  rfl

/-- Resolving the empty text below a resolved root gives the root. -/
theorem pathResolve_nil (cwd : JsString) (R : List JsString) (hR : ∀ s ∈ R, Ordinary s) :
    pathResolve cwd [absOf R, []] = absOf R := by
  have h := normalizeString_absOf false R [[]] hR (by simp) (by simp) (by simp)
  have hfil : [([] : JsString)].filter (fun s => decide (s ≠ [])) = [] := by decide
  rw [hfil, List.append_nil] at h
  simp only [joinSlash] at h
  rw [pathResolve_of_loop cwd [absOf R, []] (absOf R ++ ['/'])
    ((resolveLoop_nil _ _).trans (resolveLoop_absolute _ _ _ (pathIsAbsolute_absOf R))), h]
  rfl

theorem pathNormalize_absolute (t n : JsString) (habs : pathIsAbsolute t = true)
    (hlast : t.getLast? ≠ some '/') (hn : normalizeString t false = n) (hne : n ≠ []) :
    pathNormalize t = '/' :: n := by
  have htne : t ≠ [] := by
    intro e
    simp [e, pathIsAbsolute] at habs
  simp [pathNormalize, htne, habs, hn, hne, hlast]

theorem pathJoin_pair (a b : JsString) (ha : a ≠ []) (hb : b ≠ []) :
    pathJoin [a, b] = pathNormalize (a ++ '/' :: b) := by
  simp [pathJoin, ha, hb, joinSlash]

theorem joinSlash_ne_nil (S : List JsString) (hne : S ≠ []) (hS : ∀ s ∈ S, s ≠ []) :
    joinSlash S ≠ [] := by
  cases S with
  | nil => exact absurd rfl hne
  | cons a as =>
    cases as with
    | nil => simpa [joinSlash] using hS a (by simp)
    | cons b bs =>
      have := hS a (by simp)
      simp [joinSlash, this]

/-- The entry document of a resolved directory. -/
theorem pathJoin_index (S : List JsString) (hS : ∀ s ∈ S, Ordinary s) :
    pathJoin [absOf S, indexHtml] = absOf (S ++ [indexHtml]) := by
  have hidx : Ordinary indexHtml := by decide
  have h := normalizeString_absOf false S [indexHtml] hS (fun s hs => by
    simp only [List.mem_singleton] at hs
    exact Or.inr (hs ▸ hidx)) (fun s hs => by
    simp only [List.mem_singleton] at hs
    exact hs ▸ hidx.2.2.2) (by simp)
  have hfil : [indexHtml].filter (fun s => decide (s ≠ [])) = [indexHtml] := by decide
  rw [hfil] at h
  simp only [joinSlash] at h
  have hlast : (absOf S ++ '/' :: indexHtml).getLast? ≠ some '/' := by
    have e : (absOf S ++ '/' :: indexHtml) = (absOf S ++ '/' :: "index.htm".toList) ++ ['l'] := by
      simp [indexHtml]
    rw [e, List.getLast?_concat]
    decide
  have hjne : joinSlash (S ++ [indexHtml]) ≠ [] :=
    joinSlash_ne_nil _ (by simp) (fun s hs => by
      simp only [List.mem_append, List.mem_singleton] at hs
      rcases hs with hs | rfl
      · exact (hS s hs).1
      · exact hidx.1)
  rw [pathJoin_pair _ _ (absOf_ne_nil S) hidx.1,
    pathNormalize_absolute _ _ (by simp [pathIsAbsolute, absOf]) hlast h hjne]
  rfl

theorem dropCommon_fst_nil (R S : List JsString) (h : (dropCommon R S).1 = []) :
    S = R ++ (dropCommon R S).2 := by
  induction R generalizing S with
  | nil => cases S <;> simp [dropCommon]
  | cons r rs ih =>
    cases S with
    | nil => simp [dropCommon] at h
    | cons t ts =>
      by_cases e : r = t
      · subst e
        simp only [dropCommon, if_true] at h ⊢
        simpa using ih ts h
      · simp [dropCommon, e] at h

theorem dropCommon_append (R P : List JsString) : dropCommon R (R ++ P) = ([], P) := by
  induction R with
  | nil => cases P <;> simp [dropCommon]
  | cons r rs ih => simp [dropCommon, ih]

/-- The relative path between two resolved paths. -/
theorem pathRelative_absOf (cwd : JsString) (R S : List JsString)
    (hR : ∀ s ∈ R, Ordinary s) (hS : ∀ s ∈ S, Ordinary s) :
    pathRelative cwd (absOf R) (absOf S)
      = if R = S then []
        else joinSlash (List.replicate (dropCommon R S).1.length ['.', '.']
          ++ (dropCommon R S).2) := by
  by_cases e : R = S
  · simp [pathRelative, e]
  · have hne : absOf R ≠ absOf S := fun h => e (absOf_injective R S hR hS h)
    simp [pathRelative, e, hne, pathResolve_absOf cwd R hR, pathResolve_absOf cwd S hS,
      pathSegments_absOf R hR, pathSegments_absOf S hS]

theorem mem_of_mem_dropCommon_snd (R S : List JsString) :
    ∀ s ∈ (dropCommon R S).2, s ∈ S := by
  induction R generalizing S with
  | nil => cases S <;> simp [dropCommon]
  | cons r rs ih =>
    cases S with
    | nil => simp [dropCommon]
    | cons t ts =>
      by_cases e : r = t
      · subst e
        intro s hs
        simp only [dropCommon, if_true] at hs
        exact List.mem_cons_of_mem _ (ih ts s hs)
      · simp [dropCommon, e]

theorem dropCommon_self (R : List JsString) : dropCommon R R = ([], []) := by
  simpa using dropCommon_append R []

theorem pathIsAbsolute_joinSlash (P : List JsString) (hP : ∀ s ∈ P, Ordinary s) :
    pathIsAbsolute (joinSlash P) = false := by
  cases P with
  | nil => rfl
  | cons a as =>
    obtain ⟨hne, _, _, hsl⟩ := hP a (by simp)
    cases a with
    | nil => exact absurd rfl hne
    | cons c cs =>
      have hc : c ≠ '/' := fun e => hsl (by simp [e])
      cases as <;> simp [pathIsAbsolute, joinSlash, hc]

theorem startsWith_climb (k : Nat) (P : List JsString) :
    startsWith (joinSlash (List.replicate (k + 1) ['.', '.'] ++ P)) ['.', '.'] = true := by
  rw [List.replicate_succ]
  cases h : List.replicate k ['.', '.'] ++ P with
  | nil => simp [h, joinSlash, startsWith]
  | cons a as => simp [h, joinSlash, startsWith]

/-- The relative path from a resolved root to a path below it. -/
theorem pathRelative_descend (cwd : JsString) (R P : List JsString)
    (hR : ∀ s ∈ R, Ordinary s) (hP : ∀ s ∈ P, Ordinary s) :
    pathRelative cwd (absOf R) (absOf (R ++ P)) = joinSlash P := by
  have hRP : ∀ s ∈ R ++ P, Ordinary s := by
    intro s hs
    rcases List.mem_append.1 hs with h | h
    · exact hR s h
    · exact hP s h
  rw [pathRelative_absOf cwd R (R ++ P) hR hRP, dropCommon_append]
  by_cases e : R = R ++ P
  · have : P = [] := by simpa using e
    simp [this, joinSlash]
  · simp [e]

/-- What `resolveSafePath` returns, from the segments `S` of its candidate:
the candidate when `S` continues the root's segments `R` with a relative
text that does not begin with two dots, the entry document otherwise. -/
theorem resolveSafePath_eq (cwd : JsString) (R S : List JsString) (hR : ∀ s ∈ R, Ordinary s)
    (hS : ∀ s ∈ S, Ordinary s) (urlPath decoded : JsString)
    (hdec : decodeURIComponent (stripQueryHash urlPath) = .ok decoded)
    (hcand : candidatePath cwd (absOf R) decoded = absOf S) :
    resolveSafePath cwd (absOf R) urlPath
      = .ok (if (dropCommon R S).1 = [] ∧
              startsWith (joinSlash (dropCommon R S).2) ['.', '.'] = false
            then absOf S else absOf (R ++ [indexHtml])) := by
  simp only [resolveSafePath, hdec, hcand, pathRelative_absOf cwd R S hR hS,
    pathJoin_index R hR]
  by_cases e : R = S
  · subst e
    simp [dropCommon_self, joinSlash, startsWith, pathIsAbsolute]
  · rw [if_neg e]
    cases h1 : (dropCommon R S).1 with
    | nil =>
      have habs := pathIsAbsolute_joinSlash (dropCommon R S).2
        (fun s hs => hS s (mem_of_mem_dropCommon_snd R S s hs))
      cases h2 : startsWith (joinSlash (dropCommon R S).2) ['.', '.'] <;>
        simp [h2, habs]
    | cons a as =>
      simp only [List.length_cons, startsWith_climb]
      simp

/-- The shape of `webDir`: `path.resolve(webDirRaw)` is a normalised absolute
path whenever the working directory is absolute. -/
theorem webDir_shape (cwd webDirRaw : JsString) (hcwd : pathIsAbsolute cwd = true) :
    ∃ R : List JsString, (∀ s ∈ R, Ordinary s) ∧ pathResolve cwd [webDirRaw] = absOf R := by
  by_cases h1 : webDirRaw = []
  · obtain ⟨S, hS, hn⟩ := normalizeString_shape (cwd ++ ['/'])
    refine ⟨S, hS, ?_⟩
    rw [pathResolve_of_loop cwd [webDirRaw] (cwd ++ ['/']) (by
      subst h1
      exact (resolveLoop_nil _ _).trans (resolveLoop_absolute _ _ _ hcwd)), hn]
    rfl
  · by_cases h2 : pathIsAbsolute webDirRaw = true
    · obtain ⟨S, hS, hn⟩ := normalizeString_shape (webDirRaw ++ ['/'])
      refine ⟨S, hS, ?_⟩
      rw [pathResolve_of_loop cwd [webDirRaw] (webDirRaw ++ ['/'])
        (resolveLoop_absolute _ _ _ h2), hn]
      rfl
    · obtain ⟨S, hS, hn⟩ := normalizeString_shape (cwd ++ '/' :: (webDirRaw ++ ['/']))
      refine ⟨S, hS, ?_⟩
      rw [pathResolve_of_loop cwd [webDirRaw] (cwd ++ '/' :: (webDirRaw ++ ['/']))
        ((resolveLoop_relative _ _ _ h1 (by simpa using h2)).trans
          (resolveLoop_absolute _ _ _ hcwd)), hn]
      rfl

/-! ## Lemmas: cleaning and decoding -/

theorem splitHead_of_not_mem (sep : Char) (s : JsString) (h : sep ∉ s) :
    splitHead sep s = s := by
  induction s with
  | nil => rfl
  | cons c cs ih =>
    have hc : c ≠ sep := fun e => h (by simp [e])
    have hcs : sep ∉ cs := fun e => h (by simp [e])
    simp [splitHead, hc, ih hcs]

theorem stripQueryHash_of_not_mem (s : JsString) (hq : '?' ∉ s) (hh : '#' ∉ s) :
    stripQueryHash s = s := by
  simp [stripQueryHash, splitHead_of_not_mem _ s hq, splitHead_of_not_mem _ s hh]

theorem percentItems_of_not_mem (s : JsString) (h : '%' ∉ s) :
    percentItems s = .ok (s.map Item.unit) := by
  induction s with
  | nil => rfl
  | cons c cs ih =>
    have hc : c ≠ '%' := fun e => h (by simp [e])
    have hcs : '%' ∉ cs := fun e => h (by simp [e])
    unfold percentItems
    rw [if_neg hc, ih hcs]
    rfl

theorem utf8Assemble_units (s : JsString) : utf8Assemble none (s.map Item.unit) = .ok s := by
  induction s with
  | nil => rfl
  | cons c cs ih => simp [utf8Assemble, ih, Except.map]

/-- A text without `%` decodes to itself. -/
theorem decodeURIComponent_of_not_mem (s : JsString) (h : '%' ∉ s) :
    decodeURIComponent s = .ok s := by
  simp [decodeURIComponent, percentItems_of_not_mem s h, utf8Assemble_units]

theorem not_mem_joinSlash (c : Char) (hc : c ≠ '/') (P : List JsString)
    (h : ∀ s ∈ P, c ∉ s) : c ∉ joinSlash P := by
  induction P with
  | nil => simp [joinSlash]
  | cons a as ih =>
    have ha := h a (by simp)
    have has := ih (fun s hs => h s (by simp [hs]))
    cases as with
    | nil => simpa [joinSlash] using ha
    | cons b bs =>
      simp only [joinSlash, List.mem_append, List.mem_cons, not_or]
      exact ⟨ha, hc, has⟩

/-! ## Lemmas: `path.extname` -/

theorem takeWhile_append_stop (p : Char → Bool) (xs ys : List Char) (y : Char)
    (hxs : ∀ c ∈ xs, p c = true) (hy : p y = false) :
    (xs ++ y :: ys).takeWhile p = xs := by
  induction xs with
  | nil => simp [List.takeWhile, hy]
  | cons x xs ih =>
    have hx := hxs x (by simp)
    simp [List.takeWhile, hx, ih (fun c hc => hxs c (by simp [hc]))]

theorem takeWhile_all (p : Char → Bool) (xs : List Char) (hxs : ∀ c ∈ xs, p c = true) :
    xs.takeWhile p = xs := by
  induction xs with
  | nil => rfl
  | cons x xs ih =>
    have hx := hxs x (by simp)
    simp [List.takeWhile, hx, ih (fun c hc => hxs c (by simp [hc]))]

theorem takeWhile_append_of_mem (p : Char → Bool) (xs zs : List Char) (y : Char)
    (hy : y ∈ xs) (hp : p y = false) : (xs ++ zs).takeWhile p = xs.takeWhile p := by
  induction xs with
  | nil => simp at hy
  | cons x xs ih =>
    by_cases hx : p x = true
    · have hy2 : y ∈ xs := by
        rcases List.mem_cons.1 hy with e | e
        · rw [e, hx] at hp
          exact absurd hp (by simp)
        · exact e
      simp [List.takeWhile, hx, ih hy2]
    · simp [List.takeWhile, hx]

theorem length_takeWhile_lt (p : Char → Bool) (xs : List Char) (y : Char) (hy : y ∈ xs)
    (hp : p y = false) : (xs.takeWhile p).length < xs.length := by
  induction xs with
  | nil => simp at hy
  | cons x xs ih =>
    by_cases hx : p x = true
    · have hy2 : y ∈ xs := by
        rcases List.mem_cons.1 hy with e | e
        · rw [e, hx] at hp
          exact absurd hp (by simp)
        · exact e
      simpa [List.takeWhile, hx] using ih hy2
    · simp [List.takeWhile, hx]

/-- The reversed last component that `path.extname` looks at, for a path
ending in the segment `s`. -/
theorem baseRev_append (pre s : JsString) (hne : s ≠ []) (hs : '/' ∉ s) :
    ((pre ++ '/' :: s).reverse.dropWhile (fun c => c = '/')).takeWhile (fun c => c ≠ '/')
      = s.reverse := by
  have hrev : (pre ++ '/' :: s).reverse = s.reverse ++ '/' :: pre.reverse := by simp
  rw [hrev]
  have hall : ∀ c ∈ s.reverse, (decide (c ≠ '/')) = true := by
    intro c hc
    have : c ≠ '/' := fun e => hs (by simpa [e] using hc)
    simpa using this
  cases h : s.reverse with
  | nil => simp at h; exact absurd h hne
  | cons x xs =>
    rw [h] at hall
    have hx : x ≠ '/' := by simpa using hall x (by simp)
    have hdrop : ((x :: xs) ++ '/' :: pre.reverse).dropWhile (fun c => decide (c = '/'))
        = (x :: xs) ++ '/' :: pre.reverse := by
      simp [List.dropWhile, hx]
    rw [hdrop]
    exact takeWhile_append_stop _ _ _ _ hall (by simp)

theorem baseRev_self (s : JsString) (hne : s ≠ []) (hs : '/' ∉ s) :
    (s.reverse.dropWhile (fun c => c = '/')).takeWhile (fun c => c ≠ '/') = s.reverse := by
  have hall : ∀ c ∈ s.reverse, (decide (c ≠ '/')) = true := by
    intro c hc
    have : c ≠ '/' := fun e => hs (by simpa [e] using hc)
    simpa using this
  cases h : s.reverse with
  | nil => simp at h; exact absurd h hne
  | cons x xs =>
    rw [h] at hall
    have hx : x ≠ '/' := by simpa using hall x (by simp)
    have hdrop : (x :: xs).dropWhile (fun c => decide (c = '/')) = x :: xs := by
      simp [List.dropWhile, hx]
    rw [hdrop]
    exact takeWhile_all _ _ hall

/-- The extension of a path is the extension of its last segment. -/
theorem pathExtname_append (pre s : JsString) (hne : s ≠ []) (hs : '/' ∉ s) :
    pathExtname (pre ++ '/' :: s) = pathExtname s := by
  unfold pathExtname
  rw [baseRev_append pre s hne hs, baseRev_self s hne hs]

theorem absOf_append_singleton (S : List JsString) (s : JsString) :
    ∃ pre : JsString, absOf (S ++ [s]) = pre ++ '/' :: s := by
  cases S with
  | nil => exact ⟨[], rfl⟩
  | cons a as =>
    refine ⟨absOf (a :: as), ?_⟩
    simp only [absOf]
    rw [joinSlash_append_singleton _ _ (by simp)]
    rfl

theorem pathExtname_absOf (S : List JsString) (s : JsString) (hne : s ≠ [])
    (hs : '/' ∉ s) : pathExtname (absOf (S ++ [s])) = pathExtname s := by
  obtain ⟨pre, h⟩ := absOf_append_singleton S s
  rw [h, pathExtname_append pre s hne hs]

/-- A segment without `.` has no extension. -/
theorem pathExtname_of_no_dot (s : JsString) (hne : s ≠ []) (hs : '/' ∉ s)
    (hdot : '.' ∉ s) : pathExtname s = [] := by
  unfold pathExtname
  rw [baseRev_self s hne hs]
  have hall : ∀ c ∈ s.reverse, (decide (c ≠ '.')) = true := by
    intro c hc
    have : c ≠ '.' := fun e => hdot (by simpa [e] using hc)
    simpa using this
  have h := takeWhile_all _ _ hall
  simp only [h]
  simp

/-- A segment other than `..` with a `.` after its first character has an
extension. -/
theorem pathExtname_of_inner_dot (c : Char) (t : JsString) (hs : '/' ∉ c :: t)
    (hdot : '.' ∈ t) (hne : c :: t ≠ ['.', '.']) : pathExtname (c :: t) ≠ [] := by
  unfold pathExtname
  rw [baseRev_self (c :: t) (by simp) hs]
  have hrev : (c :: t).reverse = t.reverse ++ [c] := by simp
  have hlt : ((t.reverse ++ [c]).takeWhile (fun x => decide (x ≠ '.'))).length
      < t.reverse.length := by
    have hmem : '.' ∈ t.reverse := by simpa using hdot
    rw [takeWhile_append_of_mem _ _ _ '.' hmem (by simp)]
    exact length_takeWhile_lt _ _ '.' hmem (by simp)
  have hrevne : (c :: t).reverse ≠ ['.', '.'] := by
    intro e
    apply hne
    have := congrArg List.reverse e
    simpa using this
  rw [hrev] at hrevne ⊢
  have hlen : (t.reverse ++ [c]).length = t.reverse.length + 1 := by simp
  rw [if_neg (by omega), if_neg (by omega), if_neg hrevne]
  simp

/-- The value of `resolveSafePath` continues the root's segments with
ordinary segments. -/
theorem resolveSafePath_shape (cwd : JsString) (R : List JsString)
    (hR : ∀ s ∈ R, Ordinary s) (urlPath decoded : JsString)
    (hdec : decodeURIComponent (stripQueryHash urlPath) = .ok decoded) :
    ∃ rest : List JsString, (∀ s ∈ rest, Ordinary s) ∧
      resolveSafePath cwd (absOf R) urlPath = .ok (absOf (R ++ rest)) := by
  obtain ⟨S, hS, hcand⟩ :=
    pathResolve_shape cwd (absOf R) (stripLeadingSlash decoded) (pathIsAbsolute_absOf R)
  have heq := resolveSafePath_eq cwd R S hR hS urlPath decoded hdec hcand
  by_cases hin : (dropCommon R S).1 = [] ∧
      startsWith (joinSlash (dropCommon R S).2) ['.', '.'] = false
  · rw [if_pos hin] at heq
    have hSeq := dropCommon_fst_nil R S hin.1
    have hrest : ∀ s ∈ (dropCommon R S).2, Ordinary s :=
      fun s hs => hS s (mem_of_mem_dropCommon_snd R S s hs)
    refine ⟨(dropCommon R S).2, hrest, ?_⟩
    rw [heq, ← hSeq]
  · rw [if_neg hin] at heq
    exact ⟨[indexHtml], by decide, heq⟩

theorem resolveSafePath_ok_shape (cwd : JsString) (R : List JsString)
    (hR : ∀ s ∈ R, Ordinary s) (u r : JsString)
    (h : resolveSafePath cwd (absOf R) u = .ok r) :
    ∃ rest : List JsString, (∀ s ∈ rest, Ordinary s) ∧ r = absOf (R ++ rest) := by
  cases hdec : decodeURIComponent (stripQueryHash u) with
  | error e => simp [resolveSafePath, hdec] at h
  | ok decoded =>
    obtain ⟨rest, hrest, h2⟩ := resolveSafePath_shape cwd R hR u decoded hdec
    rw [h2] at h
    exact ⟨rest, hrest, (Except.ok.inj h).symm⟩

/-- A request written with plain segments, possibly with empty ones between
or after them, resolves to the root's segments followed by the plain ones,
unless the relative text begins with two dots. -/
theorem resolveSafePath_descend (cwd : JsString) (R P : List JsString)
    (hR : ∀ s ∈ R, Ordinary s) (hP : ∀ s ∈ P, s = [] ∨ Plain s)
    (hne : joinSlash P ≠ []) (hrel : pathIsAbsolute (joinSlash P) = false)
    (hdots : startsWith (joinSlash (P.filter (fun s => s ≠ []))) ['.', '.'] = false) :
    resolveSafePath cwd (absOf R) ('/' :: joinSlash P)
      = .ok (absOf (R ++ P.filter (fun s => s ≠ []))) := by
  have hmem : ∀ c : Char, c ≠ '/' → (∀ s ∈ P, c ∉ s) → c ∉ '/' :: joinSlash P := by
    intro c hc h
    simp only [List.mem_cons, not_or]
    exact ⟨hc, not_mem_joinSlash c hc P h⟩
  have hq : '?' ∉ '/' :: joinSlash P := hmem '?' (by decide) (fun s hs => by
    rcases hP s hs with rfl | h
    · simp
    · exact h.2.1)
  have hh : '#' ∉ '/' :: joinSlash P := hmem '#' (by decide) (fun s hs => by
    rcases hP s hs with rfl | h
    · simp
    · exact h.2.2.1)
  have hp : '%' ∉ '/' :: joinSlash P := hmem '%' (by decide) (fun s hs => by
    rcases hP s hs with rfl | h
    · simp
    · exact h.2.2.2)
  have hdec : decodeURIComponent (stripQueryHash ('/' :: joinSlash P))
      = .ok ('/' :: joinSlash P) := by
    rw [stripQueryHash_of_not_mem _ hq hh, decodeURIComponent_of_not_mem _ hp]
  have hPo : ∀ s ∈ P, s = [] ∨ Ordinary s := fun s hs => (hP s hs).imp id (fun h => h.1)
  have hcand : candidatePath cwd (absOf R) ('/' :: joinSlash P)
      = absOf (R ++ P.filter (fun s => s ≠ [])) := by
    simp only [candidatePath, stripLeadingSlash, if_true]
    exact pathResolve_descend cwd R P hR hPo hne hrel
  have hS : ∀ s ∈ R ++ P.filter (fun s => s ≠ []), Ordinary s := by
    intro s hs
    rcases List.mem_append.1 hs with h | h
    · exact hR s h
    · have h1 := List.mem_filter.1 h
      rcases hPo s h1.1 with e | e
      · simp [e] at h1
      · exact e
  rw [resolveSafePath_eq cwd R _ hR hS _ _ hdec hcand, dropCommon_append, if_pos]
  exact ⟨rfl, hdots⟩

theorem filter_plain (P : List JsString) (hP : ∀ s ∈ P, Plain s) :
    P.filter (fun s => decide (s ≠ [])) = P :=
  List.filter_eq_self.2 (fun s hs => by simpa using (hP s hs).1.1)

/-! ## Lemmas: the request handler -/

theorem reqUrlOf_ne_nil (url : Option JsString) : reqUrlOf url ≠ [] := by
  cases url with
  | none => simp [reqUrlOf]
  | some u => by_cases h : u = [] <;> simp [reqUrlOf, h]

/-- The steps of `finalPath` after `resolveSafePath` has returned and the
directory test has answered. -/
theorem finalPath_step (fs : FileSystem) (cwd webDir : JsString) (url : Option JsString)
    (resolved p1 : JsString) (isDir : Bool)
    (hres : resolveSafePath cwd webDir (reqUrlOf url) = .ok resolved)
    (hp1 : (if reqUrlOf url = ['/'] ∨ reqUrlOf url = [] then pathJoin [webDir, indexHtml]
      else resolved) = p1)
    (hdir : isExistingDirectory fs p1 = .ok isDir) :
    finalPath fs cwd webDir url
      = .ok (if (!fs.existsSync (if isDir then pathJoin [p1, indexHtml] else p1)
              && !decide (pathExtname (if isDir then pathJoin [p1, indexHtml] else p1) ≠ []))
              = true
            then pathJoin [webDir, indexHtml]
            else if isDir then pathJoin [p1, indexHtml] else p1) := by
  simp only [finalPath, hres, hp1, hdir]

theorem pathExtname_index (S : List JsString) :
    pathExtname (absOf (S ++ [indexHtml])) = ".html".toList := by
  rw [pathExtname_absOf S indexHtml (by decide) (by decide)]
  decide

/-- The final path continues the root's segments with ordinary segments, and
with at least one unless the root is not an existing directory. -/
theorem finalPath_shape (fs : FileSystem) (cwd : JsString) (R : List JsString)
    (hR : ∀ s ∈ R, Ordinary s) (url : Option JsString) (p : JsString)
    (h : finalPath fs cwd (absOf R) url = .ok p) :
    ∃ rest : List JsString, (∀ s ∈ rest, Ordinary s) ∧ p = absOf (R ++ rest) ∧
      (rest = [] → isExistingDirectory fs (absOf R) = .ok false) := by
  have hidx : Ordinary indexHtml := by decide
  cases hres : resolveSafePath cwd (absOf R) (reqUrlOf url) with
  | error e => simp [finalPath, hres] at h
  | ok resolved =>
    obtain ⟨rest0, hrest0, hr0⟩ := resolveSafePath_ok_shape cwd R hR _ _ hres
    have hp1 : ∃ rest1 : List JsString, (∀ s ∈ rest1, Ordinary s) ∧
        (if reqUrlOf url = ['/'] ∨ reqUrlOf url = [] then pathJoin [absOf R, indexHtml]
          else resolved) = absOf (R ++ rest1) := by
      by_cases hs : reqUrlOf url = ['/'] ∨ reqUrlOf url = []
      · exact ⟨[indexHtml], by decide, by rw [if_pos hs, pathJoin_index R hR]⟩
      · exact ⟨rest0, hrest0, by rw [if_neg hs, hr0]⟩
    obtain ⟨rest1, hrest1, hp1⟩ := hp1
    have hR1 : ∀ s ∈ R ++ rest1, Ordinary s := by
      intro s hs
      rcases List.mem_append.1 hs with h | h
      · exact hR s h
      · exact hrest1 s h
    cases hdir : isExistingDirectory fs (absOf (R ++ rest1)) with
    | error e => simp [finalPath, hres, hp1, hdir] at h
    | ok isDir =>
      rw [finalPath_step fs cwd (absOf R) url resolved _ isDir hres hp1 hdir] at h
      have h := (Except.ok.inj h).symm
      rw [pathJoin_index R hR, pathJoin_index _ hR1] at h
      cases isDir with
      | true =>
        simp only [if_true] at h
        by_cases hc : (!fs.existsSync (absOf (R ++ rest1 ++ [indexHtml]))
            && !decide (pathExtname (absOf (R ++ rest1 ++ [indexHtml])) ≠ [])) = true
        · rw [if_pos hc] at h
          exact ⟨[indexHtml], by decide, h, by simp⟩
        · rw [if_neg hc] at h
          refine ⟨rest1 ++ [indexHtml], ?_, by rw [h, List.append_assoc], by simp⟩
          intro s hs
          rcases List.mem_append.1 hs with h3 | h3
          · exact hrest1 s h3
          · simp only [List.mem_singleton] at h3
            exact h3 ▸ hidx
      | false =>
        simp only [Bool.false_eq_true, if_false] at h
        by_cases hc : (!fs.existsSync (absOf (R ++ rest1))
            && !decide (pathExtname (absOf (R ++ rest1)) ≠ [])) = true
        · rw [if_pos hc] at h
          exact ⟨[indexHtml], by decide, h, by simp⟩
        · rw [if_neg hc] at h
          refine ⟨rest1, hrest1, h, ?_⟩
          intro e
          subst e
          rw [List.append_nil] at hdir
          exact hdir

/-! ## Containment of `resolveSafePath` -/

/-- C1. For a document root `webDir = absOf R` and every `urlPath` on which
percent-decoding succeeds, `resolveSafePath` returns `webDir` itself or a
descendant of it: the root's segments followed by ordinary segments `rest`
(none of them `..`), and `rest` is the returned path relative to `webDir`. -/
theorem resolveSafePath_within (cwd : JsString) (R : List JsString)
    (hR : ∀ s ∈ R, Ordinary s) (urlPath decoded : JsString)
    (hdec : decodeURIComponent (stripQueryHash urlPath) = .ok decoded) :
    ∃ rest : List JsString, (∀ s ∈ rest, Ordinary s) ∧
      resolveSafePath cwd (absOf R) urlPath = .ok (absOf (R ++ rest)) ∧
      pathRelative cwd (absOf R) (absOf (R ++ rest)) = joinSlash rest := by
  obtain ⟨rest, hrest, h⟩ := resolveSafePath_shape cwd R hR urlPath decoded hdec
  exact ⟨rest, hrest, h, pathRelative_descend cwd R rest hR hrest⟩

/-- C1, at the root `/srv/www` and the request `/a/%2e%2e/b.js?v=1`. -/
theorem resolveSafePath_within_witness :
    ∃ rest : List JsString, (∀ s ∈ rest, Ordinary s) ∧
      resolveSafePath "/home/u".toList (absOf ["srv".toList, "www".toList])
          "/a/%2e%2e/b.js?v=1".toList
        = .ok (absOf (["srv".toList, "www".toList] ++ rest)) ∧
      pathRelative "/home/u".toList (absOf ["srv".toList, "www".toList])
          (absOf (["srv".toList, "www".toList] ++ rest)) = joinSlash rest :=
  resolveSafePath_within "/home/u".toList ["srv".toList, "www".toList] (by decide)
    "/a/%2e%2e/b.js?v=1".toList "/a/../b.js".toList (by decide)

/-- C2. When the decoded, normalised candidate of `rawPath` lies outside the
root (the root's segments do not begin the candidate's), `resolveSafePath`
returns exactly `root/index.html`. -/
theorem resolveSafePath_outside (cwd : JsString) (R : List JsString)
    (hR : ∀ s ∈ R, Ordinary s) (rawPath decoded : JsString)
    (hdec : decodeURIComponent (stripQueryHash rawPath) = .ok decoded)
    (hout : ¬ (pathSegments (absOf R) <+:
      pathSegments (candidatePath cwd (absOf R) decoded))) :
    resolveSafePath cwd (absOf R) rawPath = .ok (absOf (R ++ [indexHtml])) := by
  obtain ⟨S, hS, hcand⟩ :=
    pathResolve_shape cwd (absOf R) (stripLeadingSlash decoded) (pathIsAbsolute_absOf R)
  have hcand2 : candidatePath cwd (absOf R) decoded = absOf S := hcand
  rw [hcand2, pathSegments_absOf R hR, pathSegments_absOf S hS] at hout
  rw [resolveSafePath_eq cwd R S hR hS rawPath decoded hdec hcand, if_neg]
  rintro ⟨h1, _⟩
  exact hout ⟨_, (dropCommon_fst_nil R S h1).symm⟩

/-- C2, at the root `/srv/www` and the encoded traversal
`/%2e%2e%2f%2e%2e%2fetc/passwd`. -/
theorem resolveSafePath_outside_witness :
    ¬ (pathSegments (absOf ["srv".toList, "www".toList]) <+:
        pathSegments (candidatePath "/home/u".toList (absOf ["srv".toList, "www".toList])
          "/../../etc/passwd".toList)) ∧
      resolveSafePath "/home/u".toList (absOf ["srv".toList, "www".toList])
          "/%2e%2e%2f%2e%2e%2fetc/passwd".toList
        = .ok (absOf (["srv".toList, "www".toList] ++ [indexHtml])) :=
  ⟨by decide, resolveSafePath_outside "/home/u".toList ["srv".toList, "www".toList]
    (by decide) "/%2e%2e%2f%2e%2e%2fetc/passwd".toList "/../../etc/passwd".toList
    (by decide) (by decide)⟩

/-! ## Lemmas: final paths and responses -/

theorem reqUrlOf_some (u : JsString) (h : u ≠ []) : reqUrlOf (some u) = u := by
  simp [reqUrlOf, h]

theorem isExistingDirectory_file (fs : FileSystem) (p : JsString)
    (hfile : fs.statSync p = .ok .file) : isExistingDirectory fs p = .ok false := by
  unfold isExistingDirectory
  rw [hfile]
  cases fs.existsSync p <;> rfl

theorem isExistingDirectory_missing (fs : FileSystem) (p : JsString)
    (hmiss : fs.existsSync p = false) : isExistingDirectory fs p = .ok false := by
  simp [isExistingDirectory, hmiss]

theorem isExistingDirectory_directory (fs : FileSystem) (p : JsString)
    (hex : fs.existsSync p = true) (hdir : fs.statSync p = .ok .directory) :
    isExistingDirectory fs p = .ok true := by
  unfold isExistingDirectory
  rw [hex, hdir]
  rfl

/-- The terminal check on an existing regular file: the file is streamed. -/
theorem handler_regular_file (fs : FileSystem) (cwd webDir : JsString)
    (url : Option JsString) (p : JsString) (h : finalPath fs cwd webDir url = .ok p)
    (hex : fs.existsSync p = true) (hfile : fs.statSync p = .ok .file) :
    handler fs cwd webDir url = response200 p := by
  have hn : isNotRegularFile fs p = .ok false := by
    unfold isNotRegularFile
    rw [hex, hfile]
    rfl
  simp [handler, h, hn]

/-- The terminal check on a path that does not exist: 404. -/
theorem handler_missing (fs : FileSystem) (cwd webDir : JsString)
    (url : Option JsString) (p : JsString) (h : finalPath fs cwd webDir url = .ok p)
    (hmiss : fs.existsSync p = false) :
    handler fs cwd webDir url = response404 := by
  have hn : isNotRegularFile fs p = .ok true := by
    simp [isNotRegularFile, hmiss]
  simp [handler, h, hn]

/-- The root shortcut: for the request `/` the final path is the entry
document, unless the entry document is itself an existing directory. -/
theorem finalPath_root (fs : FileSystem) (cwd : JsString) (R : List JsString)
    (hR : ∀ s ∈ R, Ordinary s) (url : Option JsString) (hurl : reqUrlOf url = ['/'])
    (hnd : isExistingDirectory fs (absOf (R ++ [indexHtml])) = .ok false) :
    finalPath fs cwd (absOf R) url = .ok (absOf (R ++ [indexHtml])) := by
  obtain ⟨rest, _, hres⟩ := resolveSafePath_shape cwd R hR ['/'] ['/'] (by decide)
  rw [← hurl] at hres
  have hp1 : (if reqUrlOf url = ['/'] ∨ reqUrlOf url = [] then pathJoin [absOf R, indexHtml]
      else absOf (R ++ rest)) = absOf (R ++ [indexHtml]) := by
    rw [if_pos (Or.inl hurl), pathJoin_index R hR]
  rw [finalPath_step fs cwd (absOf R) url _ _ false hres hp1 hnd, pathJoin_index R hR]
  simp

theorem contentTypeFor_index (S : List JsString) :
    contentTypeFor (absOf (S ++ [indexHtml])) = "text/html; charset=utf-8" := by
  unfold contentTypeFor
  rw [pathExtname_index]
  decide

theorem joinSlash_plain_ne_nil (P : List JsString) (hP : ∀ s ∈ P, Plain s) (hne : P ≠ []) :
    joinSlash P ≠ [] :=
  joinSlash_ne_nil P hne (fun s hs => (hP s hs).1.1)

/-- A request `/p` written with plain segments that do not begin with two
dots resolves to `root/p`, and no step before the directory test changes it. -/
theorem resolveSafePath_plain (cwd : JsString) (R P : List JsString)
    (hR : ∀ s ∈ R, Ordinary s) (hP : ∀ s ∈ P, Plain s) (hne : P ≠ [])
    (hdots : startsWith (joinSlash P) ['.', '.'] = false) :
    resolveSafePath cwd (absOf R) (reqUrlOf (some ('/' :: joinSlash P)))
      = .ok (absOf (R ++ P)) := by
  have h := resolveSafePath_descend cwd R P hR (fun s hs => Or.inr (hP s hs))
    (joinSlash_plain_ne_nil P hP hne)
    (pathIsAbsolute_joinSlash P (fun s hs => (hP s hs).1))
    (by rw [filter_plain P hP]; exact hdots)
  rw [filter_plain P hP] at h
  rw [reqUrlOf_some _ (by simp), h]

theorem reqUrlOf_plain_ne_root (P : List JsString) (hP : ∀ s ∈ P, Plain s) (hne : P ≠ []) :
    ¬ (reqUrlOf (some ('/' :: joinSlash P)) = ['/'] ∨
      reqUrlOf (some ('/' :: joinSlash P)) = []) := by
  rw [reqUrlOf_some _ (by simp)]
  have := joinSlash_plain_ne_nil P hP hne
  simp [this]

/-- The root shortcut leaves a request other than `/` alone. -/
theorem shortcut_skip (url : Option JsString) (x y : JsString)
    (h : ¬ (reqUrlOf url = ['/'] ∨ reqUrlOf url = [])) :
    (if reqUrlOf url = ['/'] ∨ reqUrlOf url = [] then x else y) = y :=
  if_neg h

/-- A request other than `/` that resolves to an existing regular file has
that file as its final path. -/
theorem finalPath_existing_file (fs : FileSystem) (cwd webDir : JsString)
    (url : Option JsString) (p : JsString)
    (hurl : ¬ (reqUrlOf url = ['/'] ∨ reqUrlOf url = []))
    (hres : resolveSafePath cwd webDir (reqUrlOf url) = .ok p)
    (hex : fs.existsSync p = true) (hfile : fs.statSync p = .ok .file) :
    finalPath fs cwd webDir url = .ok p := by
  rw [finalPath_step fs cwd webDir url p p false hres
    (shortcut_skip url _ _ hurl) (isExistingDirectory_file fs p hfile)]
  simp [hex]

/-- A request other than `/` that resolves to an existing directory holding
`index.html` has that entry document as its final path. -/
theorem finalPath_directory (fs : FileSystem) (cwd : JsString) (R S : List JsString)
    (hS : ∀ s ∈ S, Ordinary s) (url : Option JsString)
    (hurl : ¬ (reqUrlOf url = ['/'] ∨ reqUrlOf url = []))
    (hres : resolveSafePath cwd (absOf R) (reqUrlOf url) = .ok (absOf S))
    (hex : fs.existsSync (absOf S) = true) (hdir : fs.statSync (absOf S) = .ok .directory)
    (hidx : fs.existsSync (absOf (S ++ [indexHtml])) = true) :
    finalPath fs cwd (absOf R) url = .ok (absOf (S ++ [indexHtml])) := by
  rw [finalPath_step fs cwd (absOf R) url (absOf S) (absOf S) true hres
    (shortcut_skip url _ _ hurl) (isExistingDirectory_directory fs _ hex hdir)]
  simp [pathJoin_index S hS, hidx]

theorem dropCommon_nil_right (R : List JsString) : dropCommon R [] = (R, []) := by
  cases R <;> rfl

/-- The request `//` resolves to the file-system root `/`, which is the
document root only when `webDir` is `/`. -/
theorem resolveSafePath_double_slash (cwd : JsString) (R : List JsString)
    (hR : ∀ s ∈ R, Ordinary s) :
    resolveSafePath cwd (absOf R) ['/', '/']
      = .ok (if R = [] then absOf [] else absOf (R ++ [indexHtml])) := by
  have hdec : decodeURIComponent (stripQueryHash ['/', '/']) = .ok ['/', '/'] := by decide
  have hcand : candidatePath cwd (absOf R) ['/', '/'] = absOf [] := by
    have hloop : resolveLoop ([absOf R, ['/']].reverse ++ [cwd]) [] = (['/', '/'], true) :=
      resolveLoop_absolute ['/'] _ _ rfl
    have hcp : candidatePath cwd (absOf R) ['/', '/'] = pathResolve cwd [absOf R, ['/']] := rfl
    rw [hcp, pathResolve_of_loop cwd _ _ hloop]
    decide
  rw [resolveSafePath_eq cwd R [] hR (by simp) _ _ hdec hcand, dropCommon_nil_right]
  by_cases e : R = []
  · subst e
    rfl
  · simp [e]

theorem pathIsAbsolute_append (x y : JsString) (hx : x ≠ []) :
    pathIsAbsolute (x ++ y) = pathIsAbsolute x := by
  cases x with
  | nil => exact absurd rfl hx
  | cons c cs => rfl

/-- A request `/d/` written with plain segments and a final slash resolves
like `/d`. -/
theorem resolveSafePath_plain_slash (cwd : JsString) (R D : List JsString)
    (hR : ∀ s ∈ R, Ordinary s) (hD : ∀ s ∈ D, Plain s) (hne : D ≠ [])
    (hdots : startsWith (joinSlash D) ['.', '.'] = false) :
    resolveSafePath cwd (absOf R) (reqUrlOf (some ('/' :: (joinSlash D ++ ['/']))))
      = .ok (absOf (R ++ D)) := by
  have hjne := joinSlash_plain_ne_nil D hD hne
  have hfil : (D ++ [[]]).filter (fun s => decide (s ≠ [])) = D := by
    rw [List.filter_append, filter_plain D hD]
    simp
  have hP : ∀ s ∈ D ++ [[]], s = [] ∨ Plain s := by
    intro s hs
    rcases List.mem_append.1 hs with h | h
    · exact Or.inr (hD s h)
    · simp only [List.mem_singleton] at h
      exact Or.inl h
  have h := resolveSafePath_descend cwd R (D ++ [[]]) hR hP
    (by rw [joinSlash_append_nil D hne]; simp)
    (by
      rw [joinSlash_append_nil D hne, pathIsAbsolute_append _ _ hjne]
      exact pathIsAbsolute_joinSlash D (fun s hs => (hD s hs).1))
    (by rw [hfil]; exact hdots)
  rw [hfil, joinSlash_append_nil D hne] at h
  rw [reqUrlOf_some _ (by simp), h]

/-! ## The request handler stays inside the root -/

theorem handler_of_finalPath (fs : FileSystem) (cwd webDir : JsString)
    (url : Option JsString) (p : JsString) (h : finalPath fs cwd webDir url = .ok p)
    (h200 : (handler fs cwd webDir url).statusCode = 200) :
    handler fs cwd webDir url = response200 p := by
  unfold handler at h200 ⊢
  rw [h] at h200 ⊢
  cases hn : isNotRegularFile fs p with
  | error e => simp [hn, response500] at h200
  | ok b =>
    cases b with
    | true => simp [hn, response404] at h200
    | false => simp [hn]

/-- C3. With the root an existing directory, whenever resolution does not
throw, the final path of the handler is a strict descendant of the root (the
root's segments followed by at least one ordinary segment), and a response
with status 200 streams exactly that path. -/
theorem handler_serves_within_root (fs : FileSystem) (cwd : JsString)
    (R : List JsString) (hR : ∀ s ∈ R, Ordinary s)
    (hexists : fs.existsSync (absOf R) = true)
    (hisdir : fs.statSync (absOf R) = .ok .directory)
    (url : Option JsString) (p : JsString)
    (h : finalPath fs cwd (absOf R) url = .ok p) :
    ∃ rest : List JsString, rest ≠ [] ∧ (∀ s ∈ rest, Ordinary s) ∧ p = absOf (R ++ rest) ∧
      ((handler fs cwd (absOf R) url).statusCode = 200 →
        handler fs cwd (absOf R) url = response200 (absOf (R ++ rest))) := by
  obtain ⟨rest, hrest, hp, hroot⟩ := finalPath_shape fs cwd R hR url p h
  refine ⟨rest, ?_, hrest, hp, fun h200 => hp ▸ handler_of_finalPath fs cwd _ url p h h200⟩
  intro e
  have := hroot e
  simp [isExistingDirectory, hexists, hisdir, Except.map, FileKind.isDirectory] at this

/-- C3, at the root `/srv/www` holding `index.html` and `app.js`, for the
request `/x/../app.js`. -/
theorem handler_serves_within_root_witness :
    ∃ rest : List JsString, rest ≠ [] ∧ (∀ s ∈ rest, Ordinary s) ∧
      "/srv/www/app.js".toList = absOf (["srv".toList, "www".toList] ++ rest) ∧
      ((handler (fsOf ["/srv/www/index.html".toList, "/srv/www/app.js".toList]
          ["/srv/www".toList]) "/home/u".toList (absOf ["srv".toList, "www".toList])
          (some "/x/../app.js".toList)).statusCode = 200 →
        handler (fsOf ["/srv/www/index.html".toList, "/srv/www/app.js".toList]
          ["/srv/www".toList]) "/home/u".toList (absOf ["srv".toList, "www".toList])
          (some "/x/../app.js".toList)
          = response200 (absOf (["srv".toList, "www".toList] ++ rest))) :=
  handler_serves_within_root
    (fsOf ["/srv/www/index.html".toList, "/srv/www/app.js".toList] ["/srv/www".toList])
    "/home/u".toList ["srv".toList, "www".toList] (by decide) (by decide) (by decide)
    (some "/x/../app.js".toList) "/srv/www/app.js".toList (by decide)

/-! ## Malformed escapes -/

theorem percentItems_percent_malformed (t : JsString)
    (hbad : ∀ h1 h2 rest, t = h1 :: h2 :: rest → hexVal h1 = none ∨ hexVal h2 = none) :
    percentItems ('%' :: t) = .error .uriError := by
  unfold percentItems
  rw [if_pos rfl]
  cases t with
  | nil => rfl
  | cons h1 t1 =>
    cases t1 with
    | nil => rfl
    | cons h2 rest =>
      show (match hexVal h1, hexVal h2 with
        | some a, some b =>
          (percentItems rest).map (fun is => Item.octet (16 * a + b) :: is)
        | _, _ => .error .uriError) = _
      split
      · rename_i a b ha hb
        rcases hbad h1 h2 rest rfl with h | h
        · rw [h] at ha
          exact absurd ha (by simp)
        · rw [h] at hb
          exact absurd hb (by simp)
      · rfl

theorem percentItems_malformed (t : JsString)
    (hbad : ∀ h1 h2 rest, t = h1 :: h2 :: rest → hexVal h1 = none ∨ hexVal h2 = none) :
    ∀ (n : Nat) (pre : JsString), pre.length ≤ n →
      percentItems (pre ++ '%' :: t) = .error .uriError := by
  have hpc : hexVal '%' = none := by decide
  intro n
  induction n with
  | zero =>
    intro pre h
    have : pre = [] := by simpa using h
    subst this
    exact percentItems_percent_malformed t hbad
  | succ n ih =>
    intro pre h
    cases pre with
    | nil => exact percentItems_percent_malformed t hbad
    | cons c pre1 =>
      have h1len : pre1.length ≤ n := by simpa using h
      by_cases hc : c = '%'
      · subst hc
        cases pre1 with
        | nil =>
          exact percentItems_percent_malformed ('%' :: t) (fun h1 h2 rest e => by
            simp only [List.cons.injEq] at e
            exact Or.inl (e.1 ▸ hpc))
        | cons a pre2 =>
          cases pre2 with
          | nil =>
            exact percentItems_percent_malformed (a :: '%' :: t) (fun h1 h2 rest e => by
              simp only [List.cons.injEq] at e
              exact Or.inr (e.2.1 ▸ hpc))
          | cons b pre3 =>
            have h3 := ih pre3 (by simp at h1len; omega)
            show percentItems ('%' :: a :: b :: (pre3 ++ '%' :: t)) = _
            unfold percentItems
            rw [if_pos rfl]
            show (match hexVal a, hexVal b with
              | some x, some y =>
                (percentItems (pre3 ++ '%' :: t)).map (fun is => Item.octet (16 * x + y) :: is)
              | _, _ => .error .uriError) = _
            split
            · rw [h3]
              rfl
            · rfl
      · have h3 := ih pre1 h1len
        show percentItems (c :: (pre1 ++ '%' :: t)) = _
        unfold percentItems
        rw [if_neg hc, h3]
        rfl

/-- A `%` that is not followed by two hexadecimal digits makes
`decodeURIComponent` throw, wherever it stands. -/
theorem decodeURIComponent_malformed (pre t : JsString)
    (hbad : ∀ h1 h2 rest, t = h1 :: h2 :: rest → hexVal h1 = none ∨ hexVal h2 = none) :
    decodeURIComponent (pre ++ '%' :: t) = .error .uriError := by
  simp [decodeURIComponent, percentItems_malformed t hbad pre.length pre le_rfl]

/-- C4 as stated fails: on the malformed paths `/%zz` and `/%` the decoding
throws, `resolveSafePath` throws with it, and the handler answers 500. -/
theorem handler_malformed_counterexample :
    resolveSafePath "/home/u".toList "/srv/www".toList "/%zz".toList = .error .uriError ∧
    (handler (fsOf ["/srv/www/index.html".toList] ["/srv/www".toList]) "/home/u".toList
      "/srv/www".toList (some "/%zz".toList)).statusCode = 500 ∧
    (handler (fsOf ["/srv/www/index.html".toList] ["/srv/www".toList]) "/home/u".toList
      "/srv/www".toList (some "/%".toList)).statusCode = 500 := by
  decide

/-- C4, amended. When the decoding of the cleaned request path throws,
`resolveSafePath` throws the same error and the handler answers with the
response of its `catch` branch: status 500, the single header
`Content-Type: text/plain; charset=utf-8` and the body
`Internal Server Error`. -/
theorem handler_decode_failure (fs : FileSystem) (cwd webDir : JsString)
    (url : Option JsString) (e : JsError)
    (h : decodeURIComponent (stripQueryHash (reqUrlOf url)) = .error e) :
    resolveSafePath cwd webDir (reqUrlOf url) = .error e ∧
      handler fs cwd webDir url
        = Response.mk 500 [("Content-Type", "text/plain; charset=utf-8")]
            (Body.text "Internal Server Error") ∧
      (handler fs cwd webDir url).statusCode = 500 ∧
      (handler fs cwd webDir url).contentType = some "text/plain; charset=utf-8" ∧
      (handler fs cwd webDir url).body = Body.text "Internal Server Error" := by
  have hres : resolveSafePath cwd webDir (reqUrlOf url) = .error e := by
    simp [resolveSafePath, h]
  have hresp : handler fs cwd webDir url = response500 := by
    simp [handler, finalPath, hres]
  rw [hresp]
  exact ⟨hres, rfl, rfl, rfl, rfl⟩

/-- C4 amended, at the request `/%zz`. -/
theorem handler_decode_failure_witness :
    resolveSafePath "/home/u".toList "/srv/www".toList (reqUrlOf (some "/%zz".toList))
        = .error .uriError ∧
      handler (fsOf ["/srv/www/index.html".toList] ["/srv/www".toList]) "/home/u".toList
          "/srv/www".toList (some "/%zz".toList)
        = Response.mk 500 [("Content-Type", "text/plain; charset=utf-8")]
            (Body.text "Internal Server Error") ∧
      (handler (fsOf ["/srv/www/index.html".toList] ["/srv/www".toList]) "/home/u".toList
          "/srv/www".toList (some "/%zz".toList)).statusCode = 500 ∧
      (handler (fsOf ["/srv/www/index.html".toList] ["/srv/www".toList]) "/home/u".toList
          "/srv/www".toList (some "/%zz".toList)).contentType
        = some "text/plain; charset=utf-8" ∧
      (handler (fsOf ["/srv/www/index.html".toList] ["/srv/www".toList]) "/home/u".toList
          "/srv/www".toList (some "/%zz".toList)).body
        = Body.text "Internal Server Error" :=
  handler_decode_failure _ _ _ (some "/%zz".toList) .uriError (by decide)

/-! ## The root shortcut -/

/-- C5 as stated fails: when `root/index.html` is an existing directory, the
requests `/` and the empty one resolve to `root/index.html/index.html`. -/
theorem root_shortcut_counterexample :
    finalPath (fsOf [] ["/srv/www".toList, "/srv/www/index.html".toList]) "/home/u".toList
        (absOf ["srv".toList, "www".toList]) (some "/".toList)
      = .ok "/srv/www/index.html/index.html".toList ∧
    finalPath (fsOf [] ["/srv/www".toList, "/srv/www/index.html".toList]) "/home/u".toList
        (absOf ["srv".toList, "www".toList]) (some "".toList)
      = .ok "/srv/www/index.html/index.html".toList ∧
    "/srv/www/index.html/index.html".toList
      ≠ absOf (["srv".toList, "www".toList] ++ [indexHtml]) := by
  decide

/-- C5, amended. For every root the requests with the empty path and with `/`
have the same final path, and that path is exactly `root/index.html` whenever
`root/index.html` is not an existing directory. -/
theorem root_shortcut (fs : FileSystem) (cwd : JsString) (R : List JsString)
    (hR : ∀ s ∈ R, Ordinary s) :
    finalPath fs cwd (absOf R) (some []) = finalPath fs cwd (absOf R) (some ['/']) ∧
      (isExistingDirectory fs (absOf (R ++ [indexHtml])) = .ok false →
        finalPath fs cwd (absOf R) (some ['/']) = .ok (absOf (R ++ [indexHtml]))) :=
  ⟨rfl, fun hnd => finalPath_root fs cwd R hR (some ['/']) rfl hnd⟩

/-- C5 amended, at the root `/srv/www` holding the regular file `index.html`. -/
theorem root_shortcut_witness :
    finalPath (fsOf ["/srv/www/index.html".toList] ["/srv/www".toList]) "/home/u".toList
        (absOf ["srv".toList, "www".toList]) (some ['/'])
      = .ok (absOf (["srv".toList, "www".toList] ++ [indexHtml])) :=
  (root_shortcut (fsOf ["/srv/www/index.html".toList] ["/srv/www".toList]) "/home/u".toList
    ["srv".toList, "www".toList] (by decide)).2 (by decide)

/-! ## Direct files -/

/-- C6 as stated fails: the segment `..foo` is neither `.` nor `..`, the
regular file `root/..foo` exists, and the request `/..foo` is answered with
`root/index.html`. -/
theorem direct_file_counterexample :
    Plain "..foo".toList ∧
    (fsOf ["/srv/www/index.html".toList, "/srv/www/..foo".toList]
      ["/srv/www".toList]).existsSync (absOf ["srv".toList, "www".toList, "..foo".toList])
      = true ∧
    (fsOf ["/srv/www/index.html".toList, "/srv/www/..foo".toList]
      ["/srv/www".toList]).statSync (absOf ["srv".toList, "www".toList, "..foo".toList])
      = .ok .file ∧
    finalPath (fsOf ["/srv/www/index.html".toList, "/srv/www/..foo".toList]
        ["/srv/www".toList]) "/home/u".toList (absOf ["srv".toList, "www".toList])
        (some "/..foo".toList)
      = .ok "/srv/www/index.html".toList ∧
    (handler (fsOf ["/srv/www/index.html".toList, "/srv/www/..foo".toList]
        ["/srv/www".toList]) "/home/u".toList (absOf ["srv".toList, "www".toList])
        (some "/..foo".toList)).body
      = .stream "/srv/www/index.html".toList := by
  decide

/-- C6, amended. For a root-relative path `p` of plain segments (not empty,
not `.` or `..`, without `/`, `?`, `#`, `%`) that does not begin with two
dots, with `root/p` an existing regular file: the request `/p` has the final
path `root/p` and is answered with status 200, the content type of `root/p`
and the stream of `root/p`. -/
theorem handler_direct_file (fs : FileSystem) (cwd : JsString) (R P : List JsString)
    (hR : ∀ s ∈ R, Ordinary s) (hP : ∀ s ∈ P, Plain s) (hne : P ≠ [])
    (hdots : startsWith (joinSlash P) ['.', '.'] = false)
    (hex : fs.existsSync (absOf (R ++ P)) = true)
    (hfile : fs.statSync (absOf (R ++ P)) = .ok .file) :
    finalPath fs cwd (absOf R) (some ('/' :: joinSlash P)) = .ok (absOf (R ++ P)) ∧
      (handler fs cwd (absOf R) (some ('/' :: joinSlash P))).statusCode = 200 ∧
      (handler fs cwd (absOf R) (some ('/' :: joinSlash P))).contentType
        = some (contentTypeFor (absOf (R ++ P))) ∧
      (handler fs cwd (absOf R) (some ('/' :: joinSlash P))).body
        = .stream (absOf (R ++ P)) := by
  have hres := resolveSafePath_plain cwd R P hR hP hne hdots
  have hp1 := shortcut_skip _ (pathJoin [absOf R, indexHtml]) (absOf (R ++ P))
    (reqUrlOf_plain_ne_root P hP hne)
  have hfin : finalPath fs cwd (absOf R) (some ('/' :: joinSlash P))
      = .ok (absOf (R ++ P)) := by
    rw [finalPath_step fs cwd (absOf R) _ _ _ false hres hp1
      (isExistingDirectory_file fs _ hfile)]
    simp [hex]
  have hresp := handler_regular_file fs cwd (absOf R) _ _ hfin hex hfile
  rw [hresp]
  exact ⟨hfin, rfl, rfl, rfl⟩

/-- C6 amended, at the root `/srv/www` holding `app.js`: the request
`/app.js` is served as `application/javascript; charset=utf-8`. -/
theorem handler_direct_file_witness :
    finalPath (fsOf ["/srv/www/index.html".toList, "/srv/www/app.js".toList]
        ["/srv/www".toList]) "/home/u".toList (absOf ["srv".toList, "www".toList])
        (some "/app.js".toList) = .ok "/srv/www/app.js".toList ∧
      (handler (fsOf ["/srv/www/index.html".toList, "/srv/www/app.js".toList]
        ["/srv/www".toList]) "/home/u".toList (absOf ["srv".toList, "www".toList])
        (some "/app.js".toList)).statusCode = 200 ∧
      (handler (fsOf ["/srv/www/index.html".toList, "/srv/www/app.js".toList]
        ["/srv/www".toList]) "/home/u".toList (absOf ["srv".toList, "www".toList])
        (some "/app.js".toList)).contentType
        = some "application/javascript; charset=utf-8" ∧
      (handler (fsOf ["/srv/www/index.html".toList, "/srv/www/app.js".toList]
        ["/srv/www".toList]) "/home/u".toList (absOf ["srv".toList, "www".toList])
        (some "/app.js".toList)).body = .stream "/srv/www/app.js".toList :=
  handler_direct_file
    (fsOf ["/srv/www/index.html".toList, "/srv/www/app.js".toList] ["/srv/www".toList])
    "/home/u".toList ["srv".toList, "www".toList] ["app.js".toList]
    (by decide) (by decide) (by decide) (by decide) (by decide) (by decide)

/-! ## The SPA fallback -/

/-- C7, at the failing input: `root/assets` is an existing directory without
`index.html`, `root/index.html` is a regular file, and the request is
`/assets`, whose final segment has no `.`. The directory expansion gives
`root/assets/index.html`, which does not exist; the extension test reads this
expanded path, finds `.html`, and the fallback is skipped: the answer is 404
instead of `root/index.html`. -/
theorem spa_fallback_after_expansion :
    '.' ∉ "assets".toList ∧
    (fsOf ["/srv/www/index.html".toList] ["/srv/www".toList, "/srv/www/assets".toList]).existsSync
      "/srv/www/assets/index.html".toList = false ∧
    finalPath (fsOf ["/srv/www/index.html".toList]
        ["/srv/www".toList, "/srv/www/assets".toList]) "/home/u".toList
        (absOf ["srv".toList, "www".toList]) (some "/assets".toList)
      = .ok "/srv/www/assets/index.html".toList ∧
    handler (fsOf ["/srv/www/index.html".toList]
        ["/srv/www".toList, "/srv/www/assets".toList]) "/home/u".toList
        (absOf ["srv".toList, "www".toList]) (some "/assets".toList)
      = response404 := by
  decide

theorem startsWith_dots_of_no_dot (s : JsString) (hdot : '.' ∉ s) :
    startsWith s ['.', '.'] = false := by
  cases s with
  | nil => rfl
  | cons c t =>
    have hc : c ≠ '.' := fun e => hdot (by simp [e])
    have hc2 : ¬ ('.' = c) := fun e => hc e.symm
    simp [startsWith, List.isPrefixOf, hc2]

/-- C8. With `root/index.html` a regular file, for a single-segment name `s`
without `.`, `/`, `?`, `#`, `%` such that `root/s` does not exist, the request
`/s` has the final path `root/index.html` and is answered with status 200 and
the content type `text/html; charset=utf-8`. -/
theorem handler_spa_fallback (fs : FileSystem) (cwd : JsString) (R : List JsString)
    (hR : ∀ s ∈ R, Ordinary s) (s : JsString)
    (hdot : '.' ∉ s) (hsl : '/' ∉ s) (hq : '?' ∉ s) (hh : '#' ∉ s) (hp : '%' ∉ s)
    (hidx : fs.existsSync (absOf (R ++ [indexHtml])) = true)
    (hidxf : fs.statSync (absOf (R ++ [indexHtml])) = .ok .file)
    (hmiss : fs.existsSync (absOf (R ++ [s])) = false) :
    finalPath fs cwd (absOf R) (some ('/' :: s)) = .ok (absOf (R ++ [indexHtml])) ∧
      (handler fs cwd (absOf R) (some ('/' :: s))).statusCode = 200 ∧
      (handler fs cwd (absOf R) (some ('/' :: s))).contentType
        = some "text/html; charset=utf-8" ∧
      (handler fs cwd (absOf R) (some ('/' :: s))).body
        = .stream (absOf (R ++ [indexHtml])) := by
  have hfin : finalPath fs cwd (absOf R) (some ('/' :: s))
      = .ok (absOf (R ++ [indexHtml])) := by
    by_cases hs : s = []
    · subst hs
      exact finalPath_root fs cwd R hR (some ['/']) rfl (isExistingDirectory_file fs _ hidxf)
    · have hplain : ∀ x ∈ [s], Plain x := by
        intro x hx
        simp only [List.mem_singleton] at hx
        subst hx
        refine ⟨⟨hs, ?_, ?_, hsl⟩, hq, hh, hp⟩
        · intro e
          exact hdot (by simp [e])
        · intro e
          exact hdot (by simp [e])
      have hres := resolveSafePath_plain cwd R [s] hR hplain (by simp)
        (startsWith_dots_of_no_dot s hdot)
      have hp1 := shortcut_skip _ (pathJoin [absOf R, indexHtml]) (absOf (R ++ [s]))
        (reqUrlOf_plain_ne_root [s] hplain (by simp))
      have hext : pathExtname (absOf (R ++ [s])) = [] := by
        rw [pathExtname_absOf R s hs hsl, pathExtname_of_no_dot s hs hsl hdot]
      have h := finalPath_step fs cwd (absOf R) _ _ _ false hres hp1
        (isExistingDirectory_missing fs _ hmiss)
      simp only [joinSlash] at h
      rw [h]
      simp [hmiss, hext, pathJoin_index R hR]
  have hresp := handler_regular_file fs cwd (absOf R) _ _ hfin hidx hidxf
  rw [hresp]
  refine ⟨hfin, rfl, ?_, rfl⟩
  show some (contentTypeFor (absOf (R ++ [indexHtml]))) = _
  rw [contentTypeFor_index]

/-- C8, at the root `/srv/www` holding `index.html`, for the request
`/settings`. -/
theorem handler_spa_fallback_witness :
    finalPath (fsOf ["/srv/www/index.html".toList] ["/srv/www".toList]) "/home/u".toList
        (absOf ["srv".toList, "www".toList]) (some ('/' :: "settings".toList))
      = .ok (absOf (["srv".toList, "www".toList] ++ [indexHtml])) ∧
      (handler (fsOf ["/srv/www/index.html".toList] ["/srv/www".toList]) "/home/u".toList
        (absOf ["srv".toList, "www".toList]) (some ('/' :: "settings".toList))).statusCode
        = 200 ∧
      (handler (fsOf ["/srv/www/index.html".toList] ["/srv/www".toList]) "/home/u".toList
        (absOf ["srv".toList, "www".toList]) (some ('/' :: "settings".toList))).contentType
        = some "text/html; charset=utf-8" ∧
      (handler (fsOf ["/srv/www/index.html".toList] ["/srv/www".toList]) "/home/u".toList
        (absOf ["srv".toList, "www".toList]) (some ('/' :: "settings".toList))).body
        = .stream (absOf (["srv".toList, "www".toList] ++ [indexHtml])) :=
  handler_spa_fallback (fsOf ["/srv/www/index.html".toList] ["/srv/www".toList])
    "/home/u".toList ["srv".toList, "www".toList] (by decide) "settings".toList
    (by decide) (by decide) (by decide) (by decide) (by decide)
    (by decide) (by decide) (by decide)

/-! ## Missing files with an extension -/

/-- C9 as stated fails: the last component of `/.hidden` contains a `.`, the
request does not traverse and `root/.hidden` does not exist, yet
`path.extname` finds no extension in a name that only begins with `.`, the
SPA fallback applies, and the answer is `root/index.html` with status 200. -/
theorem missing_with_dot_counterexample :
    '.' ∈ ".hidden".toList ∧
    (fsOf ["/srv/www/index.html".toList] ["/srv/www".toList]).existsSync
      "/srv/www/.hidden".toList = false ∧
    candidatePath "/home/u".toList (absOf ["srv".toList, "www".toList]) "/.hidden".toList
      = "/srv/www/.hidden".toList ∧
    finalPath (fsOf ["/srv/www/index.html".toList] ["/srv/www".toList]) "/home/u".toList
        (absOf ["srv".toList, "www".toList]) (some "/.hidden".toList)
      = .ok "/srv/www/index.html".toList ∧
    (handler (fsOf ["/srv/www/index.html".toList] ["/srv/www".toList]) "/home/u".toList
        (absOf ["srv".toList, "www".toList]) (some "/.hidden".toList)).statusCode = 200 := by
  decide

/-- C9, amended. For a request whose candidate is `root/Q/b`, below the root
and with a relative path that does not begin with two dots, whose last
component `b` has a `.` after its first character, and which does not exist:
no SPA fallback is applied, the final path is the candidate, and the answer is
the 404 response, whatever `root/index.html` is. -/
theorem handler_missing_with_extension (fs : FileSystem) (cwd : JsString)
    (R : List JsString) (hR : ∀ s ∈ R, Ordinary s) (url : Option JsString)
    (decoded : JsString) (Q : List JsString) (c : Char) (t : JsString)
    (hdec : decodeURIComponent (stripQueryHash (reqUrlOf url)) = .ok decoded)
    (hQ : ∀ s ∈ Q, Ordinary s) (hlast : Ordinary (c :: t)) (hdot : '.' ∈ t)
    (hcand : candidatePath cwd (absOf R) decoded = absOf (R ++ (Q ++ [c :: t])))
    (hdots : startsWith (joinSlash (Q ++ [c :: t])) ['.', '.'] = false)
    (hmiss : fs.existsSync (absOf (R ++ (Q ++ [c :: t]))) = false) :
    finalPath fs cwd (absOf R) url = .ok (absOf (R ++ (Q ++ [c :: t]))) ∧
      handler fs cwd (absOf R) url = response404 := by
  have hP : ∀ s ∈ Q ++ [c :: t], Ordinary s := by
    intro s hs
    rcases List.mem_append.1 hs with h | h
    · exact hQ s h
    · simp only [List.mem_singleton] at h
      exact h ▸ hlast
  have hS : ∀ s ∈ R ++ (Q ++ [c :: t]), Ordinary s := by
    intro s hs
    rcases List.mem_append.1 hs with h | h
    · exact hR s h
    · exact hP s h
  have hres : resolveSafePath cwd (absOf R) (reqUrlOf url)
      = .ok (absOf (R ++ (Q ++ [c :: t]))) := by
    rw [resolveSafePath_eq cwd R _ hR hS _ _ hdec hcand, dropCommon_append, if_pos]
    exact ⟨rfl, hdots⟩
  have hurl : ¬ (reqUrlOf url = ['/'] ∨ reqUrlOf url = []) := by
    rintro (e | e)
    · rw [e] at hdec
      have hd : decodeURIComponent (stripQueryHash ['/']) = .ok ['/'] := by decide
      rw [hd] at hdec
      have hdd : decoded = ['/'] := (Except.ok.inj hdec).symm
      subst hdd
      have hc : candidatePath cwd (absOf R) ['/'] = absOf R := pathResolve_nil cwd R hR
      rw [hc] at hcand
      have := absOf_injective R _ hR hS hcand
      simp at this
    · exact reqUrlOf_ne_nil url e
  have hext : pathExtname (absOf (R ++ (Q ++ [c :: t]))) ≠ [] := by
    rw [← List.append_assoc, pathExtname_absOf (R ++ Q) (c :: t) (by simp) hlast.2.2.2]
    exact pathExtname_of_inner_dot c t hlast.2.2.2 hdot hlast.2.2.1
  have hp1 := shortcut_skip url (pathJoin [absOf R, indexHtml])
    (absOf (R ++ (Q ++ [c :: t]))) hurl
  have hfin : finalPath fs cwd (absOf R) url = .ok (absOf (R ++ (Q ++ [c :: t]))) := by
    rw [finalPath_step fs cwd (absOf R) url _ _ false hres hp1
      (isExistingDirectory_missing fs _ hmiss)]
    simp [hmiss, hext]
  exact ⟨hfin, handler_missing fs cwd (absOf R) url _ hfin hmiss⟩

/-- C9 amended, at the root `/srv/www` holding `index.html`, for the request
`/img/missing.png`. -/
theorem handler_missing_with_extension_witness :
    finalPath (fsOf ["/srv/www/index.html".toList] ["/srv/www".toList]) "/home/u".toList
        (absOf ["srv".toList, "www".toList]) (some "/img/missing.png".toList)
      = .ok (absOf (["srv".toList, "www".toList] ++ (["img".toList] ++ ['m' :: "issing.png".toList]))) ∧
      handler (fsOf ["/srv/www/index.html".toList] ["/srv/www".toList]) "/home/u".toList
        (absOf ["srv".toList, "www".toList]) (some "/img/missing.png".toList)
      = response404 :=
  handler_missing_with_extension (fsOf ["/srv/www/index.html".toList] ["/srv/www".toList])
    "/home/u".toList ["srv".toList, "www".toList] (by decide)
    (some "/img/missing.png".toList) "/img/missing.png".toList ["img".toList] 'm'
    "issing.png".toList (by decide) (by decide) (by decide) (by decide) (by decide)
    (by decide) (by decide)

/-! ## Directory index -/

/-- C10 as stated fails: `..d` is a segment other than `.` and `..`,
`root/..d` is a directory holding the regular file `index.html`, and both
`/..d` and `/..d/` are sent to `root/index.html`, which does not exist here:
the answer is 404. -/
theorem directory_index_counterexample :
    Plain "..d".toList ∧
    finalPath (fsOf ["/srv/www/..d/index.html".toList]
        ["/srv/www".toList, "/srv/www/..d".toList]) "/home/u".toList
        (absOf ["srv".toList, "www".toList]) (some "/..d".toList)
      = .ok "/srv/www/index.html".toList ∧
    (handler (fsOf ["/srv/www/..d/index.html".toList]
        ["/srv/www".toList, "/srv/www/..d".toList]) "/home/u".toList
        (absOf ["srv".toList, "www".toList]) (some "/..d".toList)).statusCode = 404 ∧
    (handler (fsOf ["/srv/www/..d/index.html".toList]
        ["/srv/www".toList, "/srv/www/..d".toList]) "/home/u".toList
        (absOf ["srv".toList, "www".toList]) (some "/..d/".toList)).statusCode = 404 := by
  decide

/-- C10, amended. For a directory `d` of plain segments that does not begin
with two dots, with `root/d` an existing directory and `root/d/index.html` an
existing regular file: the requests `/d` and `/d/` have the same final path
`root/d/index.html` and are both answered with status 200. -/
theorem handler_directory_index (fs : FileSystem) (cwd : JsString) (R D : List JsString)
    (hR : ∀ s ∈ R, Ordinary s) (hD : ∀ s ∈ D, Plain s)
    (hdots : startsWith (joinSlash D) ['.', '.'] = false)
    (hex : fs.existsSync (absOf (R ++ D)) = true)
    (hdir : fs.statSync (absOf (R ++ D)) = .ok .directory)
    (hidx : fs.existsSync (absOf (R ++ D ++ [indexHtml])) = true)
    (hidxf : fs.statSync (absOf (R ++ D ++ [indexHtml])) = .ok .file) :
    finalPath fs cwd (absOf R) (some ('/' :: joinSlash D))
        = .ok (absOf (R ++ D ++ [indexHtml])) ∧
      finalPath fs cwd (absOf R) (some ('/' :: (joinSlash D ++ ['/'])))
        = .ok (absOf (R ++ D ++ [indexHtml])) ∧
      (handler fs cwd (absOf R) (some ('/' :: joinSlash D))).statusCode = 200 ∧
      (handler fs cwd (absOf R) (some ('/' :: (joinSlash D ++ ['/'])))).statusCode = 200 := by
  have hRD : ∀ s ∈ R ++ D, Ordinary s := by
    intro s hs
    rcases List.mem_append.1 hs with h | h
    · exact hR s h
    · exact (hD s h).1
  have hboth : finalPath fs cwd (absOf R) (some ('/' :: joinSlash D))
        = .ok (absOf (R ++ D ++ [indexHtml])) ∧
      finalPath fs cwd (absOf R) (some ('/' :: (joinSlash D ++ ['/'])))
        = .ok (absOf (R ++ D ++ [indexHtml])) := by
    by_cases hne : D = []
    · subst hne
      simp only [List.append_nil] at hex hdir hidx hidxf ⊢
      refine ⟨finalPath_root fs cwd R hR (some ['/']) rfl
        (isExistingDirectory_file fs _ hidxf), ?_⟩
      have hurl : ¬ (reqUrlOf (some ['/', '/']) = ['/'] ∨ reqUrlOf (some ['/', '/']) = []) := by
        decide
      have hres : resolveSafePath cwd (absOf R) (reqUrlOf (some ['/', '/']))
          = .ok (if R = [] then absOf [] else absOf (R ++ [indexHtml])) :=
        resolveSafePath_double_slash cwd R hR
      by_cases e : R = []
      · subst e
        rw [if_pos rfl] at hres
        exact finalPath_directory fs cwd [] [] (by simp) _ hurl hres hex hdir hidx
      · rw [if_neg e] at hres
        exact finalPath_existing_file fs cwd (absOf R) _ _ hurl hres hidx hidxf
    · refine ⟨finalPath_directory fs cwd R (R ++ D) hRD _
          (reqUrlOf_plain_ne_root D hD hne)
          (resolveSafePath_plain cwd R D hR hD hne hdots) hex hdir hidx,
        finalPath_directory fs cwd R (R ++ D) hRD _ ?_
          (resolveSafePath_plain_slash cwd R D hR hD hne hdots) hex hdir hidx⟩
      rw [reqUrlOf_some _ (by simp)]
      simp
  have h1 := handler_regular_file fs cwd (absOf R) _ _ hboth.1 hidx hidxf
  have h2 := handler_regular_file fs cwd (absOf R) _ _ hboth.2 hidx hidxf
  rw [h1, h2]
  exact ⟨hboth.1, hboth.2, rfl, rfl⟩

/-- C10 amended, at the root `/srv/www` holding `assets/index.html`, for the
requests `/assets` and `/assets/`. -/
theorem handler_directory_index_witness :
    finalPath (fsOf ["/srv/www/assets/index.html".toList]
        ["/srv/www".toList, "/srv/www/assets".toList]) "/home/u".toList
        (absOf ["srv".toList, "www".toList]) (some ('/' :: joinSlash ["assets".toList]))
      = .ok (absOf (["srv".toList, "www".toList] ++ ["assets".toList] ++ [indexHtml])) ∧
    finalPath (fsOf ["/srv/www/assets/index.html".toList]
        ["/srv/www".toList, "/srv/www/assets".toList]) "/home/u".toList
        (absOf ["srv".toList, "www".toList])
        (some ('/' :: (joinSlash ["assets".toList] ++ ['/'])))
      = .ok (absOf (["srv".toList, "www".toList] ++ ["assets".toList] ++ [indexHtml])) ∧
    (handler (fsOf ["/srv/www/assets/index.html".toList]
        ["/srv/www".toList, "/srv/www/assets".toList]) "/home/u".toList
        (absOf ["srv".toList, "www".toList])
        (some ('/' :: joinSlash ["assets".toList]))).statusCode = 200 ∧
    (handler (fsOf ["/srv/www/assets/index.html".toList]
        ["/srv/www".toList, "/srv/www/assets".toList]) "/home/u".toList
        (absOf ["srv".toList, "www".toList])
        (some ('/' :: (joinSlash ["assets".toList] ++ ['/'])))).statusCode = 200 :=
  handler_directory_index
    (fsOf ["/srv/www/assets/index.html".toList] ["/srv/www".toList, "/srv/www/assets".toList])
    "/home/u".toList ["srv".toList, "www".toList] ["assets".toList]
    (by decide) (by decide) (by decide) (by decide) (by decide) (by decide) (by decide)

/-! ## The content-type table -/

theorem lookup_none_of_ne (t : List (JsString × String)) (x : JsString)
    (h : ∀ e ∈ t, x ≠ e.1) : t.lookup x = none := by
  induction t with
  | nil => rfl
  | cons e es ih =>
    obtain ⟨k, v⟩ := e
    have hk : x ≠ k := h (k, v) (by simp)
    have hb : (x == k) = false := by simpa using hk
    rw [List.lookup_cons, hb]
    exact ih (fun e he => h e (by simp [he]))

theorem contentTypeFor_table (filePath : JsString) :
    contentTypeFor filePath = specContentType (toLowerCase (pathExtname filePath)) := by
  unfold contentTypeFor
  generalize toLowerCase (pathExtname filePath) = ext
  show (if ext = ".html".toList then _ else _) = _
  by_cases h1 : ext = ".html".toList
  · rw [if_pos h1, h1]; rfl
  rw [if_neg h1]
  by_cases h2 : ext = ".js".toList
  · rw [if_pos h2, h2]; rfl
  rw [if_neg h2]
  by_cases h3 : ext = ".mjs".toList
  · rw [if_pos h3, h3]; rfl
  rw [if_neg h3]
  by_cases h4 : ext = ".css".toList
  · rw [if_pos h4, h4]; rfl
  rw [if_neg h4]
  by_cases h5 : ext = ".json".toList
  · rw [if_pos h5, h5]; rfl
  rw [if_neg h5]
  by_cases h6 : ext = ".wasm".toList
  · rw [if_pos h6, h6]; rfl
  rw [if_neg h6]
  by_cases h7 : ext = ".svg".toList
  · rw [if_pos h7, h7]; rfl
  rw [if_neg h7]
  by_cases h8 : ext = ".png".toList
  · rw [if_pos h8, h8]; rfl
  rw [if_neg h8]
  by_cases h9 : ext = ".jpg".toList
  · rw [if_pos h9, h9]; rfl
  rw [if_neg h9]
  by_cases h10 : ext = ".jpeg".toList
  · rw [if_pos h10, h10]; rfl
  rw [if_neg h10]
  by_cases h11 : ext = ".gif".toList
  · rw [if_pos h11, h11]; rfl
  rw [if_neg h11]
  by_cases h12 : ext = ".webp".toList
  · rw [if_pos h12, h12]; rfl
  rw [if_neg h12]
  by_cases h13 : ext = ".ico".toList
  · rw [if_pos h13, h13]; rfl
  rw [if_neg h13]
  by_cases h14 : ext = ".txt".toList
  · rw [if_pos h14, h14]; rfl
  rw [if_neg h14]
  by_cases h15 : ext = ".map".toList
  · rw [if_pos h15, h15]; rfl
  rw [if_neg h15]
  have hnone : mimeTable.lookup ext = none := by
    apply lookup_none_of_ne
    intro e he
    simp only [mimeTable, List.mem_cons, List.mem_singleton, List.not_mem_nil, or_false] at he
    rcases he with rfl | rfl | rfl | rfl | rfl | rfl | rfl | rfl | rfl | rfl | rfl | rfl | rfl | rfl | rfl <;> assumption
  unfold specContentType
  rw [hnone]

theorem toLower_of_capital (c d : Char) (h1 : 65 ≤ c.toNat) (h2 : c.toNat ≤ 90)
    (hd : d.toNat = c.toNat + 32) : c.toLower = d ∧ d.toLower = d := by
  constructor
  · unfold Char.toLower
    simp only [ge_iff_le, h1, h2, and_self, if_true]
    rw [← hd, Char.ofNat_toNat]
  · unfold Char.toLower
    have : ¬ (d.toNat ≥ 65 ∧ d.toNat ≤ 90) := by omega
    simp only [this, if_false]

theorem toLower_of_not_ascii (c : Char) (h : 128 ≤ c.toNat) : c.toLower = c := by
  unfold Char.toLower
  have : ¬ (c.toNat ≥ 65 ∧ c.toNat ≤ 90) := by omega
  simp only [this, if_false]

theorem sameLetter_cases (c d : Char) (h : sameLetter c d = true) :
    c = d ∨ (65 ≤ c.toNat ∧ c.toNat ≤ 90 ∧ d.toNat = c.toNat + 32) ∨
      (65 ≤ d.toNat ∧ d.toNat ≤ 90 ∧ c.toNat = d.toNat + 32) ∨
      (128 ≤ c.toNat ∧ 128 ≤ d.toNat) := by
  unfold sameLetter at h
  simp only [Bool.or_eq_true, decide_eq_true_eq] at h
  tauto

theorem toLower_of_sameLetter (c d : Char) (h : sameLetter c d = true)
    (hc : c.toNat < 128) : c.toLower = d.toLower ∧ d.toNat < 128 := by
  rcases sameLetter_cases c d h with h | ⟨h1, h2, h3⟩ | ⟨h1, h2, h3⟩ | ⟨h1, _⟩
  · subst h
    exact ⟨rfl, hc⟩
  · obtain ⟨e1, e2⟩ := toLower_of_capital c d h1 h2 h3
    exact ⟨by rw [e1, e2], by omega⟩
  · obtain ⟨e1, e2⟩ := toLower_of_capital d c h1 h2 h3
    exact ⟨by rw [e1, e2], by omega⟩
  · omega

theorem not_ascii_of_sameLetter (c d : Char) (h : sameLetter c d = true)
    (hc : 128 ≤ c.toNat) : 128 ≤ d.toNat := by
  rcases sameLetter_cases c d h with h | ⟨h1, h2, h3⟩ | ⟨h1, h2, h3⟩ | ⟨_, h2⟩
  · subst h
    exact hc
  · omega
  · omega
  · exact h2

/-- Lower-casing identifies two ASCII texts that differ only in letter case. -/
theorem toLowerCase_of_sameUpToCase (s : JsString) :
    ∀ t : JsString, sameUpToCase s t = true → (∀ c ∈ s, c.toNat < 128) →
      toLowerCase s = toLowerCase t := by
  induction s with
  | nil =>
    intro t h _
    cases t with
    | nil => rfl
    | cons d ds => simp [sameUpToCase] at h
  | cons c cs ih =>
    intro t h hs
    cases t with
    | nil => simp [sameUpToCase] at h
    | cons d ds =>
      simp only [sameUpToCase, Bool.and_eq_true] at h
      have h1 := (toLower_of_sameLetter c d h.1 (hs c (by simp))).1
      have h2 := ih ds h.2 (fun x hx => hs x (by simp [hx]))
      simp only [toLowerCase, List.map_cons] at h2 ⊢
      rw [h1, h2]

/-- A code point outside ASCII in one text has one at the same place in the
other. -/
theorem not_ascii_of_sameUpToCase (s : JsString) :
    ∀ t : JsString, sameUpToCase s t = true → (∃ c ∈ s, 128 ≤ c.toNat) →
      ∃ d ∈ t, 128 ≤ d.toNat := by
  induction s with
  | nil =>
    intro t _ h
    simp at h
  | cons c cs ih =>
    intro t h hs
    cases t with
    | nil => simp [sameUpToCase] at h
    | cons d ds =>
      simp only [sameUpToCase, Bool.and_eq_true] at h
      obtain ⟨x, hx, hx128⟩ := hs
      rcases List.mem_cons.1 hx with e | e
      · subst e
        exact ⟨d, by simp, not_ascii_of_sameLetter x d h.1 hx128⟩
      · obtain ⟨y, hy, hy128⟩ := ih ds h.2 ⟨x, e, hx128⟩
        exact ⟨y, by simp [hy], hy128⟩

/-- An extension with a code point outside ASCII has no entry in the table. -/
theorem specContentType_of_not_ascii (s : JsString) (h : ∃ c ∈ s, 128 ≤ c.toNat) :
    specContentType (toLowerCase s) = "application/octet-stream" := by
  obtain ⟨c, hc, hc128⟩ := h
  have hmem : c ∈ toLowerCase s := by
    have : c.toLower ∈ s.map Char.toLower := List.mem_map_of_mem _ hc
    rwa [toLower_of_not_ascii c hc128] at this
  have hkeys : ∀ e ∈ mimeTable, ∀ x ∈ e.1, x.toNat < 128 := by decide
  have hnone : mimeTable.lookup (toLowerCase s) = none := by
    apply lookup_none_of_ne
    intro e he heq
    have := hkeys e he c (heq ▸ hmem)
    omega
  unfold specContentType
  rw [hnone]

theorem mem_of_lookup (t : List (JsString × String)) (x : JsString) (m : String)
    (h : t.lookup x = some m) : m ∈ t.map Prod.snd := by
  induction t with
  | nil => simp at h
  | cons e es ih =>
    obtain ⟨k, v⟩ := e
    rw [List.lookup_cons] at h
    cases hb : (x == k) with
    | true =>
      rw [hb] at h
      simp only [Option.some.injEq] at h
      simp [h]
    | false =>
      rw [hb] at h
      simp [ih h]

/-- C11. `contentTypeFor` is total and case-insensitive on the extension:
for every file path it returns `application/octet-stream` or a MIME string of
the table, and two file paths whose extensions differ only in letter case
(as `a.PNG` and `a.png`) get the same MIME string. -/
theorem contentTypeFor_case_insensitive (p q : JsString)
    (h : sameUpToCase (pathExtname p) (pathExtname q) = true) :
    contentTypeFor p = contentTypeFor q ∧
      contentTypeFor p ∈ "application/octet-stream" :: mimeTable.map Prod.snd := by
  constructor
  · rw [contentTypeFor_table p, contentTypeFor_table q]
    by_cases hascii : ∀ c ∈ pathExtname p, c.toNat < 128
    · rw [toLowerCase_of_sameUpToCase _ _ h hascii]
    · have hp : ∃ c ∈ pathExtname p, 128 ≤ c.toNat := by
        push_neg at hascii
        exact hascii
      rw [specContentType_of_not_ascii _ hp,
        specContentType_of_not_ascii _ (not_ascii_of_sameUpToCase _ _ h hp)]
  · rw [contentTypeFor_table p]
    unfold specContentType
    cases hl : mimeTable.lookup (toLowerCase (pathExtname p)) with
    | none => simp
    | some m => exact List.mem_cons_of_mem _ (mem_of_lookup _ _ m hl)

/-- C11, at the file paths `a.PNG` and `a.png`. -/
theorem contentTypeFor_case_insensitive_witness :
    contentTypeFor "a.PNG".toList = contentTypeFor "a.png".toList ∧
      contentTypeFor "a.PNG".toList
        ∈ "application/octet-stream" :: mimeTable.map Prod.snd :=
  contentTypeFor_case_insensitive "a.PNG".toList "a.png".toList (by decide)

/-- C12. `contentTypeFor` equals the fixed table on the lower-cased
extension: it is the table's lookup, every path whose lower-cased extension is
one of the fifteen entries gets that entry's MIME string, and every other
path, a path without extension included, gets `application/octet-stream`. -/
theorem contentTypeFor_spec (p : JsString) :
    contentTypeFor p = specContentType (toLowerCase (pathExtname p)) ∧
      (∀ e ∈ mimeTable, toLowerCase (pathExtname p) = e.1 → contentTypeFor p = e.2) ∧
      ((∀ e ∈ mimeTable, toLowerCase (pathExtname p) ≠ e.1) →
        contentTypeFor p = "application/octet-stream") := by
  have hentries : ∀ e ∈ mimeTable, specContentType e.1 = e.2 := by decide
  refine ⟨contentTypeFor_table p, ?_, ?_⟩
  · intro e he heq
    rw [contentTypeFor_table p, heq]
    exact hentries e he
  · intro hne
    rw [contentTypeFor_table p]
    unfold specContentType
    rw [lookup_none_of_ne mimeTable _ hne]

/-- C12, at `/srv/www/main.WASM`, an entry of the table, and at
`/srv/www/README`, a path without extension. -/
theorem contentTypeFor_spec_witness :
    contentTypeFor "/srv/www/main.WASM".toList = "application/wasm" ∧
      contentTypeFor "/srv/www/README".toList = "application/octet-stream" :=
  ⟨(contentTypeFor_spec "/srv/www/main.WASM".toList).2.1
      (".wasm".toList, "application/wasm") (by decide) (by decide),
    (contentTypeFor_spec "/srv/www/README".toList).2.2 (by decide)⟩

/-! ## Responses -/

theorem handler_eq (fs : FileSystem) (cwd webDir : JsString) (url : Option JsString)
    (p : JsString) (h : finalPath fs cwd webDir url = .ok p) :
    handler fs cwd webDir url
      = match isNotRegularFile fs p with
        | .error _ => response500
        | .ok true => response404
        | .ok false => response200 p := by
  simp only [handler, h]

theorem handler_of_error (fs : FileSystem) (cwd webDir : JsString) (url : Option JsString)
    (e : JsError) (h : finalPath fs cwd webDir url = .error e) :
    handler fs cwd webDir url = response500 := by
  simp only [handler, h]

/-- The three responses of the handler. -/
theorem handler_cases (fs : FileSystem) (cwd webDir : JsString) (url : Option JsString) :
    handler fs cwd webDir url = response500 ∨ handler fs cwd webDir url = response404 ∨
      ∃ p, finalPath fs cwd webDir url = .ok p ∧
        handler fs cwd webDir url = response200 p := by
  cases h : finalPath fs cwd webDir url with
  | error e => exact Or.inl (handler_of_error fs cwd webDir url e h)
  | ok p =>
    rw [handler_eq fs cwd webDir url p h]
    cases hn : isNotRegularFile fs p with
    | error e => exact Or.inl rfl
    | ok b =>
      cases b with
      | true => exact Or.inr (Or.inl rfl)
      | false => exact Or.inr (Or.inr ⟨p, rfl, rfl⟩)

/-- C13. When resolution does not throw (the final path is `p`, and
`fs.statSync` answers on it if it exists), the response has status 404, the
single header `Content-Type: text/plain; charset=utf-8` and the body
`Not Found` exactly when `p` does not exist or exists without being a regular
file; in every other case the status is 200. -/
theorem handler_not_found_iff (fs : FileSystem) (cwd webDir : JsString)
    (url : Option JsString) (p : JsString)
    (h : finalPath fs cwd webDir url = .ok p)
    (hstat : fs.existsSync p = true → ∃ k, fs.statSync p = .ok k) :
    (handler fs cwd webDir url
          = Response.mk 404 [("Content-Type", "text/plain; charset=utf-8")]
              (Body.text "Not Found") ↔
        (fs.existsSync p = false ∨
          (fs.existsSync p = true ∧ fs.statSync p ≠ .ok .file))) ∧
      (((handler fs cwd webDir url).statusCode = 404 ∧
          (handler fs cwd webDir url).contentType = some "text/plain; charset=utf-8" ∧
          (handler fs cwd webDir url).body = Body.text "Not Found") ↔
        (fs.existsSync p = false ∨
          (fs.existsSync p = true ∧ fs.statSync p ≠ .ok .file))) ∧
      ((handler fs cwd webDir url).statusCode = 404 ↔
        handler fs cwd webDir url
          = Response.mk 404 [("Content-Type", "text/plain; charset=utf-8")]
              (Body.text "Not Found")) ∧
      (handler fs cwd webDir url
          ≠ Response.mk 404 [("Content-Type", "text/plain; charset=utf-8")]
              (Body.text "Not Found") →
        (handler fs cwd webDir url).statusCode = 200) := by
  rw [handler_eq fs cwd webDir url p h]
  cases hex : fs.existsSync p with
  | false =>
    have hn : isNotRegularFile fs p = .ok true := by simp [isNotRegularFile, hex]
    rw [hn]
    simp [response404, Response.contentType, List.lookup]
  | true =>
    obtain ⟨k, hk⟩ := hstat hex
    have hn : isNotRegularFile fs p = .ok (!k.isFile) := by
      unfold isNotRegularFile
      rw [hex, hk]
      rfl
    rw [hn, hk]
    cases k
    · refine ⟨?_, ?_, ?_, ?_⟩
      · simp [FileKind.isFile, response200]
      · simp [FileKind.isFile, response200]
      · simp [FileKind.isFile, response200]
      · intro _
        rfl
    · simp [FileKind.isFile, response404, Response.contentType, List.lookup]
    · simp [FileKind.isFile, response404, Response.contentType, List.lookup]

/-- C13, at the root `/srv/www` without `missing.png`, for the request
`/missing.png`. -/
theorem handler_not_found_iff_witness :
    (handler (fsOf ["/srv/www/index.html".toList] ["/srv/www".toList]) "/home/u".toList
          "/srv/www".toList (some "/missing.png".toList)
          = Response.mk 404 [("Content-Type", "text/plain; charset=utf-8")]
              (Body.text "Not Found") ↔
        ((fsOf ["/srv/www/index.html".toList] ["/srv/www".toList]).existsSync
            "/srv/www/missing.png".toList = false ∨
          ((fsOf ["/srv/www/index.html".toList] ["/srv/www".toList]).existsSync
            "/srv/www/missing.png".toList = true ∧ (fsOf ["/srv/www/index.html".toList] ["/srv/www".toList]).statSync
              "/srv/www/missing.png".toList ≠ .ok .file))) ∧
      (((handler (fsOf ["/srv/www/index.html".toList] ["/srv/www".toList]) "/home/u".toList
          "/srv/www".toList (some "/missing.png".toList)).statusCode = 404 ∧
          (handler (fsOf ["/srv/www/index.html".toList] ["/srv/www".toList]) "/home/u".toList
          "/srv/www".toList (some "/missing.png".toList)).contentType = some "text/plain; charset=utf-8" ∧
          (handler (fsOf ["/srv/www/index.html".toList] ["/srv/www".toList]) "/home/u".toList
          "/srv/www".toList (some "/missing.png".toList)).body = Body.text "Not Found") ↔
        ((fsOf ["/srv/www/index.html".toList] ["/srv/www".toList]).existsSync
            "/srv/www/missing.png".toList = false ∨
          ((fsOf ["/srv/www/index.html".toList] ["/srv/www".toList]).existsSync
            "/srv/www/missing.png".toList = true ∧ (fsOf ["/srv/www/index.html".toList] ["/srv/www".toList]).statSync
              "/srv/www/missing.png".toList ≠ .ok .file))) ∧
      ((handler (fsOf ["/srv/www/index.html".toList] ["/srv/www".toList]) "/home/u".toList
          "/srv/www".toList (some "/missing.png".toList)).statusCode = 404 ↔
        handler (fsOf ["/srv/www/index.html".toList] ["/srv/www".toList]) "/home/u".toList
          "/srv/www".toList (some "/missing.png".toList)
          = Response.mk 404 [("Content-Type", "text/plain; charset=utf-8")]
              (Body.text "Not Found")) ∧
      (handler (fsOf ["/srv/www/index.html".toList] ["/srv/www".toList]) "/home/u".toList
          "/srv/www".toList (some "/missing.png".toList)
          ≠ Response.mk 404 [("Content-Type", "text/plain; charset=utf-8")]
              (Body.text "Not Found") →
        (handler (fsOf ["/srv/www/index.html".toList] ["/srv/www".toList]) "/home/u".toList
          "/srv/www".toList (some "/missing.png".toList)).statusCode = 200) :=
  handler_not_found_iff (fsOf ["/srv/www/index.html".toList] ["/srv/www".toList])
    "/home/u".toList "/srv/www".toList (some "/missing.png".toList)
    "/srv/www/missing.png".toList (by decide) (fun hex => absurd hex (by decide))

/-- C14. A response with status 200 carries the content type of the final
served path followed by exactly the five fixed headers, and streams that
path; a response with status 404 or 500 carries none of the five. -/
theorem handler_headers (fs : FileSystem) (cwd webDir : JsString) (url : Option JsString) :
    ((handler fs cwd webDir url).statusCode = 200 →
        ∃ p, finalPath fs cwd webDir url = .ok p ∧
          (handler fs cwd webDir url).headers
            = [("Content-Type", contentTypeFor p),
               ("Cross-Origin-Opener-Policy", "same-origin"),
               ("Cross-Origin-Embedder-Policy", "require-corp"),
               ("Cross-Origin-Resource-Policy", "cross-origin"),
               ("Access-Control-Allow-Origin", "*"),
               ("Cache-Control", "no-cache")] ∧
          (handler fs cwd webDir url).body = .stream p) ∧
      ((handler fs cwd webDir url).statusCode = 404 ∨
          (handler fs cwd webDir url).statusCode = 500 →
        ∀ name ∈ ["Cross-Origin-Opener-Policy", "Cross-Origin-Embedder-Policy",
            "Cross-Origin-Resource-Policy", "Access-Control-Allow-Origin", "Cache-Control"],
          (handler fs cwd webDir url).headers.lookup name = none) := by
  rcases handler_cases fs cwd webDir url with h | h | ⟨p, hp, h⟩
  · rw [h]
    exact ⟨fun h200 => absurd h200 (by decide), fun _ => by decide⟩
  · rw [h]
    exact ⟨fun h200 => absurd h200 (by decide), fun _ => by decide⟩
  · rw [h]
    refine ⟨fun _ => ⟨p, hp, rfl, rfl⟩, fun hs => ?_⟩
    rcases hs with hs | hs
    · exact absurd hs (by simp [response200])
    · exact absurd hs (by simp [response200])

/-- C14, at the root `/srv/www` holding `index.html`, for the request
`/settings`: the content type is that of the served `index.html`. -/
theorem handler_headers_witness :
    ∃ p, finalPath (fsOf ["/srv/www/index.html".toList] ["/srv/www".toList])
          "/home/u".toList "/srv/www".toList (some "/settings".toList) = .ok p ∧
      (handler (fsOf ["/srv/www/index.html".toList] ["/srv/www".toList])
          "/home/u".toList "/srv/www".toList (some "/settings".toList)).headers
        = [("Content-Type", contentTypeFor p),
           ("Cross-Origin-Opener-Policy", "same-origin"),
           ("Cross-Origin-Embedder-Policy", "require-corp"),
           ("Cross-Origin-Resource-Policy", "cross-origin"),
           ("Access-Control-Allow-Origin", "*"),
           ("Cache-Control", "no-cache")] ∧
      (handler (fsOf ["/srv/www/index.html".toList] ["/srv/www".toList])
          "/home/u".toList "/srv/www".toList (some "/settings".toList)).body = .stream p :=
  (handler_headers (fsOf ["/srv/www/index.html".toList] ["/srv/www".toList])
    "/home/u".toList "/srv/www".toList (some "/settings".toList)).1 (by decide)

/-- C15. Whenever a step of the resolution throws (the resolver, the
`fs.statSync` of the directory test, or the `fs.statSync` of the terminal
check), the handler answers with status 500, the single header
`Content-Type: text/plain; charset=utf-8` and the body
`Internal Server Error`; and every request gets exactly one of three
responses: that one, the 404 response, or the 200 response that streams a
path, so its status is 200, 404 or 500. -/
theorem handler_total (fs : FileSystem) (cwd webDir : JsString) (url : Option JsString) :
    (∀ e, resolveSafePath cwd webDir (reqUrlOf url) = .error e →
        handler fs cwd webDir url
          = Response.mk 500 [("Content-Type", "text/plain; charset=utf-8")]
            (Body.text "Internal Server Error")) ∧
      (∀ resolved e, resolveSafePath cwd webDir (reqUrlOf url) = .ok resolved →
        isExistingDirectory fs
          (if reqUrlOf url = ['/'] ∨ reqUrlOf url = [] then pathJoin [webDir, indexHtml]
            else resolved) = .error e →
        handler fs cwd webDir url
          = Response.mk 500 [("Content-Type", "text/plain; charset=utf-8")]
            (Body.text "Internal Server Error")) ∧
      (∀ p e, finalPath fs cwd webDir url = .ok p → isNotRegularFile fs p = .error e →
        handler fs cwd webDir url
          = Response.mk 500 [("Content-Type", "text/plain; charset=utf-8")]
            (Body.text "Internal Server Error")) ∧
      ((handler fs cwd webDir url
            = Response.mk 500 [("Content-Type", "text/plain; charset=utf-8")]
            (Body.text "Internal Server Error") ∧
          (handler fs cwd webDir url).statusCode = 500) ∨
        (handler fs cwd webDir url
            = Response.mk 404 [("Content-Type", "text/plain; charset=utf-8")]
            (Body.text "Not Found") ∧
          (handler fs cwd webDir url).statusCode = 404) ∨
        ∃ p, finalPath fs cwd webDir url = .ok p ∧
          isNotRegularFile fs p = .ok false ∧
          (handler fs cwd webDir url).statusCode = 200 ∧
          (handler fs cwd webDir url).body = Body.stream p) ∧
      ((handler fs cwd webDir url).statusCode = 500 ↔
        (∃ e, finalPath fs cwd webDir url = .error e) ∨
          ∃ p e, finalPath fs cwd webDir url = .ok p ∧
            isNotRegularFile fs p = .error e) ∧
      ((handler fs cwd webDir url).statusCode = 200 ∨
        (handler fs cwd webDir url).statusCode = 404 ∨
        (handler fs cwd webDir url).statusCode = 500) := by
  refine ⟨?_, ?_, ?_, ?_, ?_, ?_⟩
  · intro e h
    exact handler_of_error fs cwd webDir url e (by simp only [finalPath, h])
  · intro resolved e h hd
    exact handler_of_error fs cwd webDir url e (by simp only [finalPath, h, hd])
  · intro p e h hn
    rw [handler_eq fs cwd webDir url p h, hn]
    rfl
  · cases h : finalPath fs cwd webDir url with
    | error e =>
      rw [handler_of_error fs cwd webDir url e h]
      exact Or.inl ⟨rfl, rfl⟩
    | ok p =>
      rw [handler_eq fs cwd webDir url p h]
      cases hn : isNotRegularFile fs p with
      | error e => exact Or.inl ⟨rfl, rfl⟩
      | ok b =>
        cases b with
        | true => exact Or.inr (Or.inl ⟨rfl, rfl⟩)
        | false => exact Or.inr (Or.inr ⟨p, rfl, hn, rfl, rfl⟩)
  · cases h : finalPath fs cwd webDir url with
    | error e =>
      rw [handler_of_error fs cwd webDir url e h]
      exact ⟨fun _ => Or.inl ⟨e, rfl⟩, fun _ => rfl⟩
    | ok p =>
      rw [handler_eq fs cwd webDir url p h]
      cases hn : isNotRegularFile fs p with
      | error e => exact ⟨fun _ => Or.inr ⟨p, e, rfl, hn⟩, fun _ => rfl⟩
      | ok b =>
        cases b with
        | true =>
          refine ⟨fun h5 => absurd h5 (by simp [response404]), ?_⟩
          rintro (⟨e, he⟩ | ⟨q, e, hq, he⟩)
          · exact absurd he (by simp)
          · have hpq : p = q := Except.ok.inj hq
            subst hpq
            rw [hn] at he
            exact absurd he (by simp)
        | false =>
          refine ⟨fun h5 => absurd h5 (by simp [response200]), ?_⟩
          rintro (⟨e, he⟩ | ⟨q, e, hq, he⟩)
          · exact absurd he (by simp)
          · have hpq : p = q := Except.ok.inj hq
            subst hpq
            rw [hn] at he
            exact absurd he (by simp)
  · rcases handler_cases fs cwd webDir url with h | h | ⟨p, _, h⟩
    · rw [h]
      exact Or.inr (Or.inr rfl)
    · rw [h]
      exact Or.inr (Or.inl rfl)
    · rw [h]
      exact Or.inl rfl

/-- C15, at the malformed request `/%zz`, where the resolver throws. -/
theorem handler_total_witness :
    handler (fsOf ["/srv/www/index.html".toList] ["/srv/www".toList]) "/home/u".toList
        "/srv/www".toList (some "/%zz".toList)
      = Response.mk 500 [("Content-Type", "text/plain; charset=utf-8")]
            (Body.text "Internal Server Error") :=
  (handler_total (fsOf ["/srv/www/index.html".toList] ["/srv/www".toList]) "/home/u".toList
    "/srv/www".toList (some "/%zz".toList)).1 .uriError (by decide)

/-! ## Query, fragment and trailing slash -/

theorem splitHead_append (sep : Char) (p x : JsString) (h : sep ∉ p) :
    splitHead sep (p ++ x) = p ++ splitHead sep x := by
  induction p with
  | nil => rfl
  | cons c cs ih =>
    have hc : c ≠ sep := fun e => h (by simp [e])
    have hcs : sep ∉ cs := fun e => h (by simp [e])
    simp [splitHead, hc, ih hcs]

theorem splitHead_cons_self (sep : Char) (t : JsString) : splitHead sep (sep :: t) = [] := by
  simp [splitHead]

theorem stripQueryHash_query (p t : JsString) (hq : '?' ∉ p) (hh : '#' ∉ p) :
    stripQueryHash (p ++ '?' :: t) = p := by
  unfold stripQueryHash
  rw [splitHead_append '?' p _ hq, splitHead_cons_self, List.append_nil,
    splitHead_of_not_mem '#' p hh]

theorem stripQueryHash_hash (p t : JsString) (hq : '?' ∉ p) (hh : '#' ∉ p) :
    stripQueryHash (p ++ '#' :: t) = p := by
  unfold stripQueryHash
  rw [splitHead_append '?' p _ hq]
  have h1 : splitHead '?' ('#' :: t) = '#' :: splitHead '?' t := by
    simp [splitHead]
  rw [h1, splitHead_append '#' p _ hh, splitHead_cons_self, List.append_nil]

/-- The value of `resolveSafePath` depends on `urlPath` only through its
cleaned text. -/
theorem resolveSafePath_congr (cwd webDir u v : JsString)
    (h : stripQueryHash u = stripQueryHash v) :
    resolveSafePath cwd webDir u = resolveSafePath cwd webDir v := by
  unfold resolveSafePath
  rw [h]

/-- C16. For every `p` without `?` and `#` and every `t`,
`resolveSafePath (p + '?' + t)` and `resolveSafePath (p + '#' + t)` both equal
`resolveSafePath p`, as values or as thrown errors: the text from the
delimiter on is dropped before the decoding, whatever it holds. -/
theorem resolveSafePath_ignores_query (cwd webDir p t : JsString)
    (hq : '?' ∉ p) (hh : '#' ∉ p) :
    resolveSafePath cwd webDir (p ++ '?' :: t) = resolveSafePath cwd webDir p ∧
      resolveSafePath cwd webDir (p ++ '#' :: t) = resolveSafePath cwd webDir p := by
  have hp := stripQueryHash_of_not_mem p hq hh
  exact ⟨resolveSafePath_congr cwd webDir _ _ ((stripQueryHash_query p t hq hh).trans hp.symm),
    resolveSafePath_congr cwd webDir _ _ ((stripQueryHash_hash p t hq hh).trans hp.symm)⟩

/-- C16, at `p = /a%3Fb` (an encoded `?`, which is no delimiter) and the
malformed tail `t = %zz`, which is never decoded. -/
theorem resolveSafePath_ignores_query_witness :
    (resolveSafePath "/home/u".toList "/srv/www".toList ("/a%3Fb".toList ++ '?' :: "%zz".toList)
        = resolveSafePath "/home/u".toList "/srv/www".toList "/a%3Fb".toList ∧
      resolveSafePath "/home/u".toList "/srv/www".toList ("/a%3Fb".toList ++ '#' :: "%zz".toList)
        = resolveSafePath "/home/u".toList "/srv/www".toList "/a%3Fb".toList) ∧
    resolveSafePath "/home/u".toList "/srv/www".toList "/a%3Fb".toList
      = .ok "/srv/www/a?b".toList :=
  ⟨resolveSafePath_ignores_query "/home/u".toList "/srv/www".toList "/a%3Fb".toList
    "%zz".toList (by decide) (by decide), by decide⟩

theorem not_mem_splitHead (sep : Char) (x : JsString) : sep ∉ splitHead sep x := by
  induction x with
  | nil => simp [splitHead]
  | cons c cs ih =>
    by_cases hc : c = sep
    · simp [splitHead, hc]
    · have hc2 : ¬ sep = c := fun e => hc e.symm
      simp [splitHead, hc, hc2, ih]

theorem mem_of_mem_splitHead (sep c : Char) (x : JsString) (h : c ∈ splitHead sep x) :
    c ∈ x := by
  induction x with
  | nil => simp [splitHead] at h
  | cons d ds ih =>
    by_cases hd : d = sep
    · simp [splitHead, hd] at h
    · simp only [splitHead, if_neg hd, List.mem_cons] at h
      rcases h with e | e
      · simp [e]
      · exact List.mem_cons_of_mem _ (ih e)

theorem not_mem_stripQueryHash (u : JsString) :
    '?' ∉ stripQueryHash u ∧ '#' ∉ stripQueryHash u :=
  ⟨fun h => not_mem_splitHead '?' u (mem_of_mem_splitHead '#' '?' _ h),
    not_mem_splitHead '#' _⟩

theorem map_append_cons (r : Except JsError JsString) (c : Char) :
    (r.map (fun s => s ++ ['/'])).map (fun s => c :: s)
      = (r.map (fun s => c :: s)).map (fun s => s ++ ['/']) := by
  cases r <;> rfl

/-- The second pass of the decoding on a text followed by a slash. -/
theorem utf8Assemble_append_slash (is : List Item) :
    ∀ st : Option (Nat × Nat × Nat),
      utf8Assemble st (is ++ [Item.unit '/'])
        = (utf8Assemble st is).map (fun s => s ++ ['/']) := by
  induction is with
  | nil =>
    intro st
    cases st <;> rfl
  | cons i rest ih =>
    intro st
    cases st with
    | none =>
      cases i with
      | unit c =>
        simp only [List.cons_append, utf8Assemble, List.append_eq, ih none]
        exact map_append_cons _ c
      | octet b =>
        simp only [List.cons_append, utf8Assemble, List.append_eq]
        split_ifs
        · rw [ih none]
          exact map_append_cons _ _
        · exact ih _
        · exact ih _
        · exact ih _
        · rfl
    | some st =>
      obtain ⟨n, acc, lo⟩ := st
      cases i with
      | unit c => rfl
      | octet b =>
        simp only [List.cons_append, utf8Assemble, List.append_eq]
        split_ifs
        · rw [ih none]
          exact map_append_cons _ _
        · rfl
        · exact ih _
        · rfl

theorem map_append_item (r : Except JsError (List Item)) (i : Item) :
    (r.map (fun is => is ++ [Item.unit '/'])).map (fun is => i :: is)
      = (r.map (fun is => i :: is)).map (fun is => is ++ [Item.unit '/']) := by
  cases r <;> rfl

theorem percentItems_cons_ne (c : Char) (cs : JsString) (r : Except JsError (List Item))
    (hc : c ≠ '%') (hr : percentItems cs = r) :
    percentItems (c :: cs) = r.map (fun is => Item.unit c :: is) := by
  unfold percentItems
  rw [if_neg hc, hr]

theorem percentItems_escape (a b : Char) (rest : JsString)
    (r : Except JsError (List Item)) (hr : percentItems rest = r) :
    percentItems ('%' :: a :: b :: rest)
      = match hexVal a, hexVal b with
        | some x, some y => r.map (fun is => Item.octet (16 * x + y) :: is)
        | _, _ => .error .uriError := by
  unfold percentItems
  rw [if_pos rfl]
  show (match hexVal a, hexVal b with
    | some x, some y => (percentItems rest).map (fun is => Item.octet (16 * x + y) :: is)
    | _, _ => .error .uriError) = _
  rw [hr]

/-- The first pass of the decoding on a text followed by a slash. -/
theorem percentItems_append_slash :
    ∀ (n : Nat) (q : JsString), q.length ≤ n →
      percentItems (q ++ ['/'])
        = (percentItems q).map (fun is => is ++ [Item.unit '/']) := by
  have hsl : hexVal '/' = none := by decide
  intro n
  induction n with
  | zero =>
    intro q h
    have : q = [] := by simpa using h
    subst this
    rfl
  | succ n ih =>
    intro q h
    cases q with
    | nil => rfl
    | cons c q1 =>
      have h1len : q1.length ≤ n := by simpa using h
      by_cases hc : c = '%'
      · subst hc
        cases q1 with
        | nil => rfl
        | cons a q2 =>
          cases q2 with
          | nil =>
            have e1 : percentItems (['%', a] ++ ['/']) = .error .uriError :=
              percentItems_percent_malformed [a, '/'] (fun h1 h2 rest e => by
                simp only [List.cons.injEq] at e
                exact Or.inr (e.2.1 ▸ hsl))
            have e2 : percentItems ['%', a] = .error .uriError :=
              percentItems_percent_malformed [a] (fun h1 h2 rest e => by
                simp at e)
            rw [e1, e2]
            rfl
          | cons b q3 =>
            have h3 := ih q3 (by simp at h1len; omega)
            show percentItems ('%' :: a :: b :: (q3 ++ ['/'])) = _
            rw [percentItems_escape a b (q3 ++ ['/']) _ h3,
              percentItems_escape a b q3 _ rfl]
            split
            · exact map_append_item _ _
            · rfl
      · have h3 := ih q1 h1len
        show percentItems (c :: (q1 ++ ['/'])) = _
        rw [percentItems_cons_ne c (q1 ++ ['/']) _ hc h3,
          percentItems_cons_ne c q1 _ hc rfl]
        exact map_append_item _ _

/-- Decoding a text followed by a slash. -/
theorem decodeURIComponent_append_slash (q : JsString) :
    decodeURIComponent (q ++ ['/'])
      = (decodeURIComponent q).map (fun s => s ++ ['/']) := by
  unfold decodeURIComponent
  rw [percentItems_append_slash q.length q le_rfl]
  cases percentItems q with
  | error e => rfl
  | ok is => exact utf8Assemble_append_slash is none

/-- A slash at the end of a text does not change its normal form. -/
theorem normalizeString_append_slash (t : JsString) (a : Bool) :
    normalizeString (t ++ ['/']) a = normalizeString t a := by
  unfold normalizeString
  rw [splitSlash_append t [], List.foldl_append]
  simp [splitSlash, normStep_nil]

theorem resolveLoop_append_slash (ps : List JsString) :
    ∀ acc : JsString, resolveLoop ps (acc ++ ['/'])
      = ((resolveLoop ps acc).1 ++ ['/'], (resolveLoop ps acc).2) := by
  induction ps with
  | nil => intro acc; rfl
  | cons p ps ih =>
    intro acc
    by_cases h1 : p = []
    · simp only [resolveLoop, h1, if_true]
      exact ih acc
    · by_cases h2 : pathIsAbsolute p = true
      · simp [resolveLoop, h1, h2]
      · have e : p ++ '/' :: (acc ++ ['/']) = (p ++ '/' :: acc) ++ ['/'] := by simp
        simp only [resolveLoop, h1, h2, if_false, e]
        exact ih _

/-- A slash at the end of its last argument does not change `path.resolve`. -/
theorem pathResolve_trailing_slash (cwd w x : JsString) (hx : x ≠ []) :
    pathResolve cwd [w, x ++ ['/']] = pathResolve cwd [w, x] := by
  have hx2 : x ++ ['/'] ≠ [] := by simp
  have habs : pathIsAbsolute (x ++ ['/']) = pathIsAbsolute x := pathIsAbsolute_append x _ hx
  have hloop : resolveLoop ([w, x ++ ['/']].reverse ++ [cwd]) []
      = ((resolveLoop ([w, x].reverse ++ [cwd]) []).1 ++ ['/'],
          (resolveLoop ([w, x].reverse ++ [cwd]) []).2) := by
    by_cases h2 : pathIsAbsolute x = true
    · have hL : resolveLoop ([w, x ++ ['/']].reverse ++ [cwd]) []
          = ((x ++ ['/']) ++ ['/'], true) :=
        resolveLoop_absolute (x ++ ['/']) [w, cwd] [] (habs.trans h2)
      have hR : resolveLoop ([w, x].reverse ++ [cwd]) [] = (x ++ ['/'], true) :=
        resolveLoop_absolute x [w, cwd] [] h2
      rw [hL, hR]
    · have h3 : pathIsAbsolute x = false := by simpa using h2
      have hL : resolveLoop ([w, x ++ ['/']].reverse ++ [cwd]) []
          = resolveLoop [w, cwd] ((x ++ ['/']) ++ ['/']) :=
        resolveLoop_relative (x ++ ['/']) [w, cwd] [] hx2 (habs.trans h3)
      have hR : resolveLoop ([w, x].reverse ++ [cwd]) []
          = resolveLoop [w, cwd] (x ++ ['/']) :=
        resolveLoop_relative x [w, cwd] [] hx h3
      rw [hL, hR, resolveLoop_append_slash]
  unfold pathResolve
  simp only [hloop, normalizeString_append_slash]

theorem candidatePath_trailing_slash (cwd w d : JsString) (hd : d ≠ ['/']) :
    candidatePath cwd w (d ++ ['/']) = candidatePath cwd w d := by
  unfold candidatePath
  cases d with
  | nil => rfl
  | cons c cs =>
    by_cases hc : c = '/'
    · subst hc
      have hcs : cs ≠ [] := fun e => hd (by rw [e])
      simp only [List.cons_append, stripLeadingSlash, if_true]
      exact pathResolve_trailing_slash cwd w cs hcs
    · simp only [List.cons_append, stripLeadingSlash, if_neg hc]
      exact pathResolve_trailing_slash cwd w (c :: cs) (by simp)

/-- A slash appended to a cleaned path does not change `resolveSafePath`,
unless the path decodes to `/`. -/
theorem resolveSafePath_append_slash (cwd webDir q : JsString)
    (hq : '?' ∉ q) (hh : '#' ∉ q) (hroot : decodeURIComponent q ≠ .ok ['/']) :
    resolveSafePath cwd webDir (q ++ ['/']) = resolveSafePath cwd webDir q := by
  have hq2 : '?' ∉ q ++ ['/'] := by simp [hq]
  have hh2 : '#' ∉ q ++ ['/'] := by simp [hh]
  cases hdec : decodeURIComponent q with
  | error e =>
    simp only [resolveSafePath, stripQueryHash_of_not_mem _ hq2 hh2,
      stripQueryHash_of_not_mem _ hq hh, decodeURIComponent_append_slash, hdec, Except.map]
  | ok d =>
    have hd : d ≠ ['/'] := by
      intro e
      exact hroot (by rw [hdec, e])
    simp only [resolveSafePath, stripQueryHash_of_not_mem _ hq2 hh2,
      stripQueryHash_of_not_mem _ hq hh, decodeURIComponent_append_slash, hdec, Except.map,
      candidatePath_trailing_slash cwd webDir d hd]

theorem handler_congr (fs : FileSystem) (cwd webDir : JsString) (u v : Option JsString)
    (h : finalPath fs cwd webDir u = finalPath fs cwd webDir v) :
    handler fs cwd webDir u = handler fs cwd webDir v := by
  unfold handler
  rw [h]

theorem finalPath_append_slash (fs : FileSystem) (cwd webDir q : JsString)
    (hq : '?' ∉ q) (hh : '#' ∉ q) (hroot : decodeURIComponent q ≠ .ok ['/']) :
    finalPath fs cwd webDir (some (q ++ ['/'])) = finalPath fs cwd webDir (some q) := by
  by_cases hnil : q = []
  · subst hnil
    rfl
  · have hne : q ≠ ['/'] := by
      intro e
      apply hroot
      rw [e]
      decide
    have hne2 : q ++ ['/'] ≠ ['/'] := by
      intro e
      apply hnil
      have := congrArg List.length e
      simp at this
      exact this
    have h1 : reqUrlOf (some (q ++ ['/'])) = q ++ ['/'] := reqUrlOf_some _ (by simp)
    have h2 : reqUrlOf (some q) = q := reqUrlOf_some _ hnil
    have c1 : ¬ (q ++ ['/'] = ['/'] ∨ q ++ ['/'] = []) := by
      rintro (e | e)
      · exact hne2 e
      · simp at e
    have c2 : ¬ (q = ['/'] ∨ q = []) := by
      rintro (e | e)
      · exact hne e
      · exact hnil e
    simp only [finalPath, h1, h2, resolveSafePath_append_slash cwd webDir q hq hh hroot,
      if_neg c1, if_neg c2]

/-- C17. For every `urlPath` whose cleaned, decoded path is not exactly `/`,
a slash appended to the cleaned path changes neither the value of
`resolveSafePath` nor the response of the handler: `/app.js/` is answered as
`/app.js`. -/
theorem trailing_slash_insignificant (fs : FileSystem) (cwd webDir urlPath : JsString)
    (hroot : decodeURIComponent (stripQueryHash urlPath) ≠ .ok ['/']) :
    resolveSafePath cwd webDir (stripQueryHash urlPath ++ ['/'])
        = resolveSafePath cwd webDir (stripQueryHash urlPath) ∧
      handler fs cwd webDir (some (stripQueryHash urlPath ++ ['/']))
        = handler fs cwd webDir (some (stripQueryHash urlPath)) := by
  obtain ⟨hq, hh⟩ := not_mem_stripQueryHash urlPath
  exact ⟨resolveSafePath_append_slash cwd webDir _ hq hh hroot,
    handler_congr fs cwd webDir _ _ (finalPath_append_slash fs cwd webDir _ hq hh hroot)⟩

/-- C17, at the root `/srv/www` holding `app.js`, for `/app.js`: the request
`/app.js/` streams the regular file. -/
theorem trailing_slash_insignificant_witness :
    (resolveSafePath "/home/u".toList "/srv/www".toList
          (stripQueryHash "/app.js".toList ++ ['/'])
        = resolveSafePath "/home/u".toList "/srv/www".toList
          (stripQueryHash "/app.js".toList) ∧
      handler (fsOf ["/srv/www/index.html".toList, "/srv/www/app.js".toList]
          ["/srv/www".toList]) "/home/u".toList "/srv/www".toList
          (some (stripQueryHash "/app.js".toList ++ ['/']))
        = handler (fsOf ["/srv/www/index.html".toList, "/srv/www/app.js".toList]
          ["/srv/www".toList]) "/home/u".toList "/srv/www".toList
          (some (stripQueryHash "/app.js".toList))) ∧
    handler (fsOf ["/srv/www/index.html".toList, "/srv/www/app.js".toList]
        ["/srv/www".toList]) "/home/u".toList "/srv/www".toList (some "/app.js/".toList)
      = response200 "/srv/www/app.js".toList :=
  ⟨trailing_slash_insignificant
    (fsOf ["/srv/www/index.html".toList, "/srv/www/app.js".toList] ["/srv/www".toList])
    "/home/u".toList "/srv/www".toList "/app.js".toList (by decide), by decide⟩

end GaitCharts
